import Mathlib

/-!
Shallow embedding of `src/traffic.py` (the Archipelago traffic program).

The program builds an undirected graph of cities from two line-oriented
text inputs (population records `<name> : <int>` and road records
`<nameA> : <nameB>`), then answers three questions: number of connected
components (`number_of_islands`), per-component population sums
(`island_populations`), and the minimum number of highways between two
cities (`min_highways`, a BFS).

Modelling conventions:
* Python strings are processed as `List Char`; `str.strip`, `str.split`
  and Python's `int(...)` parsing are embedded below.
* A Python `City` object is identified by its `name`.  In every graph
  returned by `build_graph` names are unique keys of the building
  dictionary, so object identity coincides with name equality; the
  adjacency field `connections` therefore stores neighbour names.
* The mutable per-object `visited` flag is embedded as an explicit
  state value: the list of names whose flag is `true`.  Stateful
  functions take the marker state and return the new one.
* The two worklist loops (DFS stack, BFS queue) are embedded with an
  explicit fuel argument; the chosen fuel is proved sufficient.
-/

/-- Characters stripped by Python's `str.strip()` (ASCII whitespace). -/
def isPyWs (c : Char) : Bool :=
  c = ' ' || c = '\t' || c = '\n' || c = '\r' || c = '\x0b' || c = '\x0c'

/-- Embedding of Python `str.strip()` on character lists. -/
def pyStrip (cs : List Char) : List Char :=
  ((cs.dropWhile isPyWs).reverse.dropWhile isPyWs).reverse

/-- Worker for Python `str.split(sep)` with non-empty separator
`s0 :: srest`: scan left to right, splitting at each non-overlapping
occurrence of the separator.  The fuel argument (structurally
decreasing, at least the length of the scanned list at the call sites
below, so never exhausted: each step consumes at least one character)
keeps the recursion structural so that the kernel can evaluate it. -/
def splitSepGo (s0 : Char) (srest : List Char) :
    Nat → List Char → List Char → List (List Char)
  | _, acc, [] => [acc.reverse]
  | 0, acc, l => [acc.reverse ++ l]
  | fuel + 1, acc, c :: cs =>
      if (s0 :: srest).isPrefixOf (c :: cs) then
        acc.reverse :: splitSepGo s0 srest fuel [] (cs.drop srest.length)
      else
        splitSepGo s0 srest fuel (c :: acc) cs

/-- Python `line.split(' : ')`. -/
def splitColon (cs : List Char) : List (List Char) :=
  splitSepGo ' ' [':', ' '] cs.length [] cs

/-- Python `text.split('\n')`. -/
def splitNl (cs : List Char) : List (List Char) :=
  splitSepGo '\n' [] cs.length [] cs

/-- The lines of an input text, as produced by `.split('\n')` in
`build_graph`. -/
def pyLines (s : String) : List String :=
  (splitNl s.toList).map String.mk

/-- Validity of the tail of a Python integer literal: digits possibly
separated by single underscores (no trailing underscore). -/
def pyDigitsTail : List Char → Bool
  | [] => true
  | ['_'] => false
  | '_' :: c :: rest => c.isDigit && pyDigitsTail (c :: rest)
  | c :: rest => c.isDigit && pyDigitsTail rest

/-- Validity of an unsigned Python integer literal body. -/
def pyDigits : List Char → Bool
  | [] => false
  | c :: rest => c.isDigit && pyDigitsTail rest

/-- Numeric value of a digit string, ignoring underscores. -/
def digitsVal (cs : List Char) : Nat :=
  cs.foldl (fun a c => if c = '_' then a else a * 10 + (c.toNat - 48)) 0

/-- Embedding of Python `int(s)` on an already stripped string:
optional sign followed by digits (underscore separators allowed);
`none` when Python would raise `ValueError`. -/
def pyParseInt (cs : List Char) : Option Int :=
  match cs with
  | '+' :: rest => if pyDigits rest then some (digitsVal rest) else none
  | '-' :: rest => if pyDigits rest then some (-(digitsVal rest : Int)) else none
  | _ => if pyDigits cs then some (digitsVal cs) else none

/-- One population line of `build_graph`: strip the line, skip it when
blank, split on `" : "` into exactly two parts, strip both, parse the
integer; `none` exactly when the line is skipped (`continue`). -/
def parsePopLine (line : String) : Option (String × Int) :=
  let l := pyStrip line.toList
  if l.isEmpty then none
  else
    match splitColon l with
    | [a, b] =>
        match pyParseInt (pyStrip b) with
        | some p => some (String.mk (pyStrip a), p)
        | none => none
    | _ => none

/-- One road line of `build_graph`: strip, skip blanks, split on
`" : "` into exactly two parts, strip both names. -/
def parseRoadLine (line : String) : Option (String × String) :=
  let l := pyStrip line.toList
  if l.isEmpty then none
  else
    match splitColon l with
    | [a, b] => some (String.mk (pyStrip a), String.mk (pyStrip b))
    | _ => none

/-- Embedding of the `City` class: `name`, `population` and the
`connections` adjacency list (neighbour names, in insertion order).
The transient `visited` flag is kept outside, as explicit state. -/
structure City where
  name : String
  population : Int
  connections : List String
deriving DecidableEq, Repr

/-- The names of the cities of a graph, in construction order. -/
def cityNames (g : List City) : List String := g.map City.name

/-- Python `name in city_map`. -/
def containsName (m : List City) (n : String) : Bool :=
  m.any (fun c => c.name = n)

/-- Python `city_map[name] = city`: replace the entry in place when the
key exists (a `dict` keeps the original insertion position), otherwise
append. -/
def mapSet (m : List City) (c : City) : List City :=
  if containsName m c.name then
    m.map (fun x => if x.name = c.name then c else x)
  else
    m ++ [c]

/-- Append an element to a list unless already present; the body of
`City.add_connection`. -/
def addOnce (l : List String) (x : String) : List String :=
  if x ∈ l then l else l ++ [x]

/-- Embedding of `city_map[selfN].add_connection(city_map[other])`:
append `other` to the connections of the city named `selfN` unless it
is already listed. -/
def add_connection (m : List City) (selfN other : String) : List City :=
  m.map (fun c =>
    if c.name = selfN then { c with connections := addOnce c.connections other }
    else c)

/-- Processing of one population line inside `build_graph`. -/
def popStep (m : List City) (line : String) : List City :=
  match parsePopLine line with
  | some (n, p) => mapSet m (City.mk n p [])
  | none => m

/-- Processing of one road line inside `build_graph`: an edge is added
(in both directions, deduplicated) only when both names are keys of the
city map. -/
def roadStep (m : List City) (line : String) : List City :=
  match parseRoadLine line with
  | some (n1, n2) =>
      if containsName m n1 && containsName m n2 then
        add_connection (add_connection m n1 n2) n2 n1
      else m
  | none => m

/-- Phase 1 of `build_graph`: fold `popStep` over the population lines
starting from the empty dictionary. -/
def popPhase (lines : List String) : List City :=
  lines.foldl popStep []

/-- Phase 2 of `build_graph`: fold `roadStep` over the road lines. -/
def roadPhase (m : List City) (lines : List String) : List City :=
  lines.foldl roadStep m

/-- Embedding of `build_graph(pop_data, road_data)`: parse the
population lines, then the road lines, and return
`list(city_map.values())` (our map is that list). -/
def build_graph (pop_data road_data : String) : List City :=
  roadPhase (popPhase (pyLines pop_data)) (pyLines road_data)

/-- The connections of the city named `n` (empty when `n` is not in the
graph); reading `city.connections` through the name key. -/
def connOf (g : List City) (n : String) : List String :=
  match g.find? (fun c => c.name = n) with
  | some c => c.connections
  | none => []

/-- The population of the city named `n` (0 when absent); reading
`city.population` through the name key. -/
def popOf (g : List City) (n : String) : Int :=
  match g.find? (fun c => c.name = n) with
  | some c => c.population
  | none => 0

/-- The population stored in the map under key `n`, when present:
`city_map[n].population`. -/
def popLookup (m : List City) (n : String) : Option Int :=
  (m.find? (fun c => c.name = n)).map City.population

/-- The reset loop `for city in city_objects: city.reset_visited()`:
the flags of all cities of `g` become false; flags of objects outside
`g` are untouched. -/
def resetAll (g : List City) (v : List String) : List String :=
  v.filter (fun n => !(containsName g n))

/-- The inner `for neighbor in city.connections` loop of
`_depth_first_search`: mark and push each not-yet-visited neighbour and
add its population to the running sum.  Returns the new stack, marker
state and sum. -/
def dfsVisit (g : List City) :
    List String → List String → List String → Int →
    List String × List String × Int
  | [], stack, v, acc => (stack, v, acc)
  | nb :: rest, stack, v, acc =>
      if nb ∈ v then dfsVisit g rest stack v acc
      else dfsVisit g rest (nb :: stack) (nb :: v) (acc + popOf g nb)

/-- The `while stack:` loop of `_depth_first_search`, with explicit
fuel (one unit per iteration; `dfsFuel` is proved sufficient).  The
stack is modelled with its top at the head. -/
def dfsLoop (g : List City) : Nat → List String → List String → Int →
    Int × List String
  | 0, _, v, acc => (acc, v)
  | _ + 1, [], v, acc => (acc, v)
  | fuel + 1, top :: rest, v, acc =>
      let t := dfsVisit g (connOf g top) rest v acc
      dfsLoop g fuel t.1 t.2.1 t.2.2

/-- Fuel bound for the DFS loop: iterations pop once each and pushes
are bounded by the newly markable names. -/
def dfsFuel (g : List City) : Nat :=
  (g.map (fun c => c.connections.length)).sum + g.length + 1

/-- Embedding of `_depth_first_search(start_city)`: returns the
component population sum and the new marker state. -/
def depth_first_search (g : List City) (start : City) (v : List String) :
    Int × List String :=
  if start.name ∈ v then (0, v)
  else dfsLoop g (dfsFuel g) [start.name] (start.name :: v) start.population

/-- The counting loop of `number_of_islands`. -/
def islandsLoop (g : List City) : List City → List String → Nat →
    Nat × List String
  | [], v, k => (k, v)
  | c :: cs, v, k =>
      if c.name ∈ v then islandsLoop g cs v k
      else
        let r := depth_first_search g c v
        islandsLoop g cs r.2 (k + 1)

/-- Embedding of `number_of_islands(city_objects)`: reset all markers,
then count one island per not-yet-visited city.  Returns the count and
the final marker state. -/
def number_of_islands (g : List City) (v0 : List String) :
    Nat × List String :=
  islandsLoop g g (resetAll g v0) 0

/-- The accumulation loop of `island_populations`. -/
def popsLoop (g : List City) : List City → List String → List Int →
    List Int × List String
  | [], v, acc => (acc, v)
  | c :: cs, v, acc =>
      if c.name ∈ v then popsLoop g cs v acc
      else
        let r := depth_first_search g c v
        popsLoop g cs r.2 (acc ++ [r.1])

/-- Embedding of `island_populations(city_objects)`: reset all markers,
then append one component sum per not-yet-visited city. -/
def island_populations (g : List City) (v0 : List String) :
    List Int × List String :=
  popsLoop g g (resetAll g v0) []

/-- The inner `for neighbor in current_city.connections` loop of
`min_highways`: return `distance + 1` as soon as a neighbour is the
destination, otherwise mark and enqueue unvisited neighbours (FIFO:
append at the tail). -/
def bfsScan (endName : String) (d : Nat) :
    List String → List (String × Nat) → List String →
    Option Nat × List (String × Nat) × List String
  | [], q, v => (none, q, v)
  | nb :: rest, q, v =>
      if nb = endName then (some (d + 1), q, v)
      else if nb ∈ v then bfsScan endName d rest q v
      else bfsScan endName d rest (q ++ [(nb, d + 1)]) (nb :: v)

/-- The `while queue:` loop of `min_highways` with explicit fuel; the
queue head is the front (`popleft`). -/
def bfsLoop (g : List City) (endName : String) :
    Nat → List (String × Nat) → List String → Int
  | 0, _, _ => -1
  | _ + 1, [], _ => -1
  | fuel + 1, (c, d) :: rest, v =>
      match bfsScan endName d (connOf g c) rest v with
      | (some r, _, _) => (r : Int)
      | (none, q2, v2) => bfsLoop g endName fuel q2 v2

/-- Fuel bound for the BFS loop. -/
def bfsFuel (g : List City) : Nat :=
  (g.map (fun c => c.connections.length)).sum + g.length + 1

/-- Embedding of `min_highways(start_city, end_city)`; the two `City`
arguments are identified by their (unique) names. -/
def min_highways (g : List City) (startName endName : String) : Int :=
  if startName = endName then 0
  else bfsLoop g endName (bfsFuel g) [(startName, 0)] [startName]

/-- `Walk g n a b`: there is a walk of exactly `n` edges from `a` to
`b` along the `connections` relation.  The specification-side notion of
a path of `n` highways. -/
def Walk (g : List City) : Nat → String → String → Prop
  | 0, a, b => a = b
  | n + 1, a, b => ∃ c, c ∈ connOf g a ∧ Walk g n c b

instance walkDecidable (g : List City) :
    (n : Nat) → (a b : String) → Decidable (Walk g n a b)
  | 0, a, b => inferInstanceAs (Decidable (a = b))
  | n + 1, a, b =>
      have _I : ∀ c, Decidable (Walk g n c b) := fun c => walkDecidable g n c b
      inferInstanceAs (Decidable (∃ c, c ∈ connOf g a ∧ Walk g n c b))

/-- Symmetry of the adjacency relation, read through `connOf`. -/
def SymmConn (m : List City) : Prop :=
  ∀ x y : String, y ∈ connOf m x → x ∈ connOf m y

/-- Every neighbour name refers to a city of the map. -/
def ConnInNames (m : List City) : Prop :=
  ∀ x y : String, y ∈ connOf m x → y ∈ cityNames m

/-- Invariant established by the population phase: unique names, no
connections yet. -/
def PopInv (m : List City) : Prop :=
  (cityNames m).Nodup ∧ ∀ c ∈ m, c.connections = []

/-- Invariant maintained by the road phase. -/
def RoadInv (m : List City) : Prop :=
  (cityNames m).Nodup ∧ ConnInNames m ∧ SymmConn m

/-- All neighbour names occurring anywhere in the graph; the universe
of names a traversal can newly mark after its start. -/
def allConns (g : List City) : List String :=
  g.foldr (fun c r => c.connections ++ r) []

/-- Sum of the populations of a list of city names. -/
def sumPops (g : List City) (l : List String) : Int :=
  (l.map (popOf g)).sum

/-- Number of potential marks still available to a traversal: the
termination measure component for the worklist loops. -/
def missing (g : List City) (v : List String) : Nat :=
  ((allConns g).toFinset \ v.toFinset).card

/-- First-occurrence deduplication (the order in which a Python dict
keeps its keys). -/
def firstDedup : List String → List String → List String
  | acc, [] => acc
  | acc, n :: ns => firstDedup (if n ∈ acc then acc else acc ++ [n]) ns

/-- The successfully parsed population records, in input order. -/
def parsedPops (lines : List String) : List (String × Int) :=
  lines.filterMap parsePopLine

/-- The invariant of the BFS loop of `min_highways`, for a search from
`start` towards `endName` with queue `q` and visited set `v`:
the start is visited, the target is not, queued names are visited, each
queue label is the exact minimum walk length from the start to that
name, labels are sorted and span at most two consecutive layers, and
every visited node no longer in the queue has been fully expanded. -/
structure BfsInv (g : List City) (start endName : String)
    (q : List (String × Nat)) (v : List String) : Prop where
  start_mem : start ∈ v
  end_not_mem : endName ∉ v
  q_mem : ∀ p ∈ q, p.1 ∈ v
  q_walk : ∀ p ∈ q, Walk g p.2 start p.1
  q_min : ∀ p ∈ q, ∀ k, Walk g k start p.1 → p.2 ≤ k
  q_sorted : q.Pairwise (fun p p' => p.2 ≤ p'.2)
  q_layers : ∀ p ∈ q, ∀ p' ∈ q, p.2 ≤ p'.2 + 1
  processed : ∀ x ∈ v, (∀ p ∈ q, p.1 ≠ x) → ∀ y ∈ connOf g x, y ∈ v

/-! ### Basic lemmas about the builder's primitive operations -/

theorem self_mem_addOnce (l : List String) (x : String) : x ∈ addOnce l x := by
  unfold addOnce
  split
  · assumption
  · simp

theorem addOnce_subset (l : List String) (x : String) : l ⊆ addOnce l x := by
  unfold addOnce
  split
  · exact fun _ h => h
  · exact fun _ h => List.mem_append_left _ h

theorem mem_addOnce {l : List String} {x y : String} :
    y ∈ addOnce l x ↔ y ∈ l ∨ y = x := by
  unfold addOnce
  split
  · constructor
    · exact Or.inl
    · rintro (h | rfl)
      · exact h
      · assumption
  · simp

theorem containsName_iff {m : List City} {n : String} :
    containsName m n = true ↔ n ∈ cityNames m := by
  unfold containsName cityNames
  simp [List.any_eq_true, List.mem_map]

theorem containsName_congr {m m' : List City} (h : cityNames m = cityNames m')
    (n : String) : containsName m n = containsName m' n := by
  cases hc : containsName m' n
  · cases hm : containsName m n
    · rfl
    · exfalso
      have h1 : n ∈ cityNames m := containsName_iff.mp hm
      rw [h] at h1
      have h2 : containsName m' n = true := containsName_iff.mpr h1
      rw [h2] at hc
      cases hc
  · rw [containsName_iff, h]
    exact containsName_iff.mp hc

theorem find?_name_of_nodup {g : List City} {c : City}
    (h : (cityNames g).Nodup) (hc : c ∈ g) :
    g.find? (fun x => x.name = c.name) = some c := by
  induction g with
  | nil => cases hc
  | cons d g ih =>
      rcases List.mem_cons.mp hc with rfl | hmem
      · simp [List.find?_cons]
      · have hd : d.name ≠ c.name := by
          intro he
          have : c.name ∈ cityNames g := List.mem_map_of_mem City.name hmem
          rw [← he] at this
          exact (List.nodup_cons.mp h).1 this
        rw [List.find?_cons]
        simp only [hd, decide_eq_true_eq, if_neg]
        exact ih (List.nodup_cons.mp h).2 hmem

theorem connOf_eq_of_mem {g : List City} {c : City}
    (h : (cityNames g).Nodup) (hc : c ∈ g) :
    connOf g c.name = c.connections := by
  unfold connOf
  rw [find?_name_of_nodup h hc]

theorem popOf_eq_of_mem {g : List City} {c : City}
    (h : (cityNames g).Nodup) (hc : c ∈ g) :
    popOf g c.name = c.population := by
  unfold popOf
  rw [find?_name_of_nodup h hc]

theorem find?_add_connection (m : List City) (a b x : String) :
    (add_connection m a b).find? (fun c => c.name = x) =
      (m.find? (fun c => c.name = x)).map
        (fun c => if c.name = a then
            { c with connections := addOnce c.connections b } else c) := by
  unfold add_connection
  rw [List.find?_map]
  have hp : ((fun c : City => decide (c.name = x)) ∘ fun c : City =>
      if c.name = a then { c with connections := addOnce c.connections b } else c) =
      (fun c : City => decide (c.name = x)) := by
    funext c
    by_cases h : c.name = a <;> simp [h]
  rw [hp]

theorem connOf_add_connection_ne {m : List City} {a x : String} (b : String)
    (h : x ≠ a) : connOf (add_connection m a b) x = connOf m x := by
  unfold connOf
  rw [find?_add_connection]
  cases hf : m.find? (fun c => c.name = x) with
  | none => rfl
  | some c =>
      have hcx : c.name = x := by simpa using List.find?_some hf
      have : ¬ (c.name = a) := by rw [hcx]; exact h
      simp [this]

theorem connOf_add_connection_self {m : List City} {a : String} (b : String)
    (h : containsName m a = true) :
    connOf (add_connection m a b) a = addOnce (connOf m a) b := by
  unfold connOf
  rw [find?_add_connection]
  have : ∃ c ∈ m, (fun c : City => (c.name = a : Bool)) c = true := by
    unfold containsName at h
    simpa [List.any_eq_true] using h
  obtain ⟨c, hf⟩ := List.find?_isSome.mpr this |> Option.isSome_iff_exists.mp
  rw [hf]
  have hca : c.name = a := by simpa using List.find?_some hf
  simp [hca]

theorem popOf_add_connection (m : List City) (a b : String) (x : String) :
    popOf (add_connection m a b) x = popOf m x := by
  unfold popOf
  rw [find?_add_connection]
  cases hf : m.find? (fun c => c.name = x) with
  | none => rfl
  | some c => by_cases h : c.name = a <;> simp [h]

theorem names_add_connection (m : List City) (a b : String) :
    cityNames (add_connection m a b) = cityNames m := by
  unfold cityNames add_connection
  rw [List.map_map]
  apply List.map_congr_left
  intro c _
  by_cases h : c.name = a <;> simp [h]

theorem mem_add_connection {m : List City} {a b : String} {c' : City} :
    c' ∈ add_connection m a b ↔
      ∃ c ∈ m, c' = (if c.name = a then
          { c with connections := addOnce c.connections b } else c) := by
  unfold add_connection
  simp only [List.mem_map]
  constructor
  · rintro ⟨c, hc, rfl⟩
    exact ⟨c, hc, rfl⟩
  · rintro ⟨c, hc, rfl⟩
    exact ⟨c, hc, rfl⟩

theorem names_mapSet (m : List City) (c : City) :
    cityNames (mapSet m c) =
      if containsName m c.name then cityNames m else cityNames m ++ [c.name] := by
  unfold mapSet
  split
  · unfold cityNames
    rw [List.map_map]
    apply List.map_congr_left
    intro x _
    by_cases h : x.name = c.name <;> simp [h]
  · unfold cityNames
    simp

theorem names_roadStep (m : List City) (line : String) :
    cityNames (roadStep m line) = cityNames m := by
  unfold roadStep
  cases parseRoadLine line with
  | none => rfl
  | some p =>
      obtain ⟨n1, n2⟩ := p
      dsimp only
      split
      · rw [names_add_connection, names_add_connection]
      · rfl

theorem names_roadPhase (m : List City) (ls : List String) :
    cityNames (roadPhase m ls) = cityNames m := by
  induction ls generalizing m with
  | nil => rfl
  | cons l ls ih =>
      unfold roadPhase at ih ⊢
      rw [List.foldl_cons, ih, names_roadStep]

/-! ### Invariants of `build_graph` -/

theorem popInv_popStep {m : List City} (h : PopInv m) (line : String) :
    PopInv (popStep m line) := by
  unfold popStep
  cases hp : parsePopLine line with
  | none => exact h
  | some pr =>
      obtain ⟨n, pop⟩ := pr
      dsimp only
      constructor
      · rw [names_mapSet]
        split
        · exact h.1
        · rename_i hguard
          have hn : n ∉ cityNames m := by
            intro hm
            rw [← containsName_iff] at hm
            simp only [City.mk] at hguard
            simp [hm] at hguard
          rw [List.nodup_append]
          refine ⟨h.1, List.nodup_singleton _, ?_⟩
          intro a ha hb
          rw [List.mem_singleton] at hb
          subst hb
          exact hn ha
      · intro c hc
        unfold mapSet at hc
        split at hc
        · rcases List.mem_map.mp hc with ⟨x, hx, rfl⟩
          split
          · rfl
          · exact h.2 x hx
        · rcases List.mem_append.mp hc with hx | hx
          · exact h.2 c hx
          · rw [List.mem_singleton] at hx
            subst hx
            rfl

theorem popInv_foldl (ls : List String) :
    ∀ m : List City, PopInv m → PopInv (List.foldl popStep m ls) := by
  induction ls with
  | nil => exact fun m h => h
  | cons l ls ih => exact fun m h => ih _ (popInv_popStep h l)

theorem popInv_popPhase (ls : List String) : PopInv (popPhase ls) :=
  popInv_foldl ls [] ⟨List.nodup_nil, fun c hc => absurd hc (List.not_mem_nil c)⟩

theorem connOf_eq_nil_of_popInv {m : List City} (h : PopInv m) (x : String) :
    connOf m x = [] := by
  unfold connOf
  cases hf : m.find? (fun c => c.name = x) with
  | none => rfl
  | some c => exact h.2 c (List.mem_of_find?_eq_some hf)

theorem mem_connOf_roadPair {m : List City} {n1 n2 : String}
    (h1 : containsName m n1 = true) (h2 : containsName m n2 = true)
    (x y : String) :
    y ∈ connOf (add_connection (add_connection m n1 n2) n2 n1) x ↔
      y ∈ connOf m x ∨ (x = n1 ∧ y = n2) ∨ (x = n2 ∧ y = n1) := by
  have h2' : containsName (add_connection m n1 n2) n2 = true := by
    rw [containsName_congr (names_add_connection m n1 n2) n2]
    exact h2
  by_cases h12 : n1 = n2
  · rw [← h12] at h2' ⊢
    by_cases hx : x = n1
    · rw [hx]
      rw [connOf_add_connection_self n1 h2', connOf_add_connection_self n1 h1]
      simp [mem_addOnce, or_assoc]
    · rw [connOf_add_connection_ne n1 hx, connOf_add_connection_ne n1 hx]
      simp [hx]
  · by_cases hx1 : x = n1
    · rw [hx1]
      rw [connOf_add_connection_ne n1 h12, connOf_add_connection_self n2 h1]
      simp [mem_addOnce, h12]
    · by_cases hx2 : x = n2
      · rw [hx2]
        rw [connOf_add_connection_self n1 h2',
          connOf_add_connection_ne n2 (Ne.symm h12)]
        simp [mem_addOnce, Ne.symm h12]
      · rw [connOf_add_connection_ne n1 hx2, connOf_add_connection_ne n2 hx1]
        simp [hx1, hx2]

theorem symmConn_roadStep {m : List City} (h : SymmConn m) (line : String) :
    SymmConn (roadStep m line) := by
  unfold roadStep
  cases hp : parseRoadLine line with
  | none => exact h
  | some pr =>
      obtain ⟨n1, n2⟩ := pr
      dsimp only
      split
      · rename_i hguard
        obtain ⟨h1, h2⟩ := (Bool.and_eq_true _ _).mp hguard
        intro x y hy
        rw [mem_connOf_roadPair h1 h2] at hy ⊢
        rcases hy with hy | ⟨rfl, rfl⟩ | ⟨rfl, rfl⟩
        · exact Or.inl (h x y hy)
        · exact Or.inr (Or.inr ⟨rfl, rfl⟩)
        · exact Or.inr (Or.inl ⟨rfl, rfl⟩)
      · exact h

theorem connInNames_roadStep {m : List City} (h : ConnInNames m) (line : String) :
    ConnInNames (roadStep m line) := by
  have hnames := names_roadStep m line
  unfold roadStep at hnames ⊢
  cases hp : parseRoadLine line with
  | none => exact h
  | some pr =>
      obtain ⟨n1, n2⟩ := pr
      rw [hp] at hnames
      dsimp only at hnames ⊢
      split
      · rename_i hguard
        rw [if_pos hguard] at hnames
        obtain ⟨h1, h2⟩ := (Bool.and_eq_true _ _).mp hguard
        intro x y hy
        rw [mem_connOf_roadPair h1 h2] at hy
        rw [hnames]
        rcases hy with hy | ⟨rfl, rfl⟩ | ⟨rfl, rfl⟩
        · exact h x y hy
        · exact containsName_iff.mp h2
        · exact containsName_iff.mp h1
      · exact h

theorem roadInv_roadStep {m : List City} (h : RoadInv m) (line : String) :
    RoadInv (roadStep m line) :=
  ⟨by rw [names_roadStep]; exact h.1,
   connInNames_roadStep h.2.1 line,
   symmConn_roadStep h.2.2 line⟩

theorem roadInv_foldl (ls : List String) :
    ∀ m : List City, RoadInv m → RoadInv (roadPhase m ls) := by
  induction ls with
  | nil => exact fun m h => h
  | cons l ls ih =>
      intro m h
      unfold roadPhase at ih ⊢
      rw [List.foldl_cons]
      exact ih _ (roadInv_roadStep h l)

theorem roadInv_of_popInv {m : List City} (h : PopInv m) : RoadInv m := by
  refine ⟨h.1, ?_, ?_⟩
  · intro x y hy
    rw [connOf_eq_nil_of_popInv h] at hy
    cases hy
  · intro x y hy
    rw [connOf_eq_nil_of_popInv h] at hy
    cases hy

theorem build_graph_inv (pop road : String) : RoadInv (build_graph pop road) :=
  roadInv_foldl (pyLines road) (popPhase (pyLines pop))
    (roadInv_of_popInv (popInv_popPhase (pyLines pop)))

theorem selfLoop_roadStep {m : List City} {line : String} {x : String}
    (hx : x ∈ connOf (roadStep m line) x) :
    x ∈ connOf m x ∨ parseRoadLine line = some (x, x) := by
  unfold roadStep at hx
  cases hp : parseRoadLine line with
  | none => rw [hp] at hx; exact Or.inl hx
  | some pr =>
      obtain ⟨n1, n2⟩ := pr
      rw [hp] at hx
      dsimp only at hx
      split at hx
      · rename_i hguard
        obtain ⟨h1, h2⟩ := (Bool.and_eq_true _ _).mp hguard
        rw [mem_connOf_roadPair h1 h2] at hx
        rcases hx with hx | ⟨rfl, rfl⟩ | ⟨rfl, rfl⟩
        · exact Or.inl hx
        · exact Or.inr rfl
        · exact Or.inr rfl
      · exact Or.inl hx

theorem selfLoop_roadPhase {x : String} (ls : List String) :
    ∀ m : List City, x ∈ connOf (roadPhase m ls) x →
      x ∈ connOf m x ∨ ∃ l ∈ ls, parseRoadLine l = some (x, x) := by
  induction ls with
  | nil => exact fun m hx => Or.inl hx
  | cons l ls ih =>
      intro m hx
      unfold roadPhase at hx
      rw [List.foldl_cons] at hx
      rcases ih _ hx with hx' | ⟨l', hl', hp⟩
      · rcases selfLoop_roadStep hx' with hx'' | hp
        · exact Or.inl hx''
        · exact Or.inr ⟨l, List.mem_cons_self l ls, hp⟩
      · exact Or.inr ⟨l', List.mem_cons_of_mem l hl', hp⟩

/-! ### Lemmas about the depth-first traversal -/

theorem mem_allConns {g : List City} {x : String} :
    x ∈ allConns g ↔ ∃ c ∈ g, x ∈ c.connections := by
  induction g with
  | nil => simp [allConns]
  | cons c g ih =>
      unfold allConns at ih ⊢
      simp [List.foldr_cons, List.mem_append, ih]

theorem connOf_subset_allConns (g : List City) (x : String) :
    ∀ y ∈ connOf g x, y ∈ allConns g := by
  intro y hy
  unfold connOf at hy
  cases hf : g.find? (fun c => c.name = x) with
  | none => rw [hf] at hy; cases hy
  | some c =>
      rw [hf] at hy
      exact mem_allConns.mpr ⟨c, List.mem_of_find?_eq_some hf, hy⟩

theorem sumPops_append (g : List City) (l1 l2 : List String) :
    sumPops g (l1 ++ l2) = sumPops g l1 + sumPops g l2 := by
  unfold sumPops
  rw [List.map_append, List.sum_append]

theorem dfsVisit_spec (g : List City) (conns : List String) :
    ∀ stack v acc, ∃ new : List String,
      dfsVisit g conns stack v acc = (new ++ stack, new ++ v, acc + sumPops g new) ∧
      new.Nodup ∧
      (∀ x ∈ new, x ∉ v ∧ x ∈ conns) ∧
      (∀ nb ∈ conns, nb ∈ new ++ v) := by
  induction conns with
  | nil =>
      intro stack v acc
      refine ⟨[], ?_, List.nodup_nil, ?_, ?_⟩
      · simp [dfsVisit, sumPops]
      · intro x hx; cases hx
      · intro nb hnb; cases hnb
  | cons nb rest ih =>
      intro stack v acc
      unfold dfsVisit
      by_cases h : nb ∈ v
      · rw [if_pos h]
        obtain ⟨new, heq, hnd, hmem, hcov⟩ := ih stack v acc
        refine ⟨new, heq, hnd, ?_, ?_⟩
        · intro x hx
          obtain ⟨h1, h2⟩ := hmem x hx
          exact ⟨h1, List.mem_cons_of_mem nb h2⟩
        · intro x hx
          rcases List.mem_cons.mp hx with rfl | hx'
          · exact List.mem_append_right _ h
          · exact hcov x hx'
      · rw [if_neg h]
        obtain ⟨new, heq, hnd, hmem, hcov⟩ := ih (nb :: stack) (nb :: v) (acc + popOf g nb)
        refine ⟨new ++ [nb], ?_, ?_, ?_, ?_⟩
        · rw [heq, sumPops_append]
          refine congrArg₂ Prod.mk ?_ (congrArg₂ Prod.mk ?_ ?_)
          · rw [List.append_assoc]; rfl
          · rw [List.append_assoc]; rfl
          · unfold sumPops
            simp only [List.map_cons, List.map_nil, List.sum_cons, List.sum_nil]
            ring
        · rw [List.nodup_append]
          refine ⟨hnd, List.nodup_singleton _, ?_⟩
          intro x hx hx'
          rw [List.mem_singleton] at hx'
          subst hx'
          exact (hmem x hx).1 (List.mem_cons_self _ _)
        · intro x hx
          rcases List.mem_append.mp hx with hx' | hx'
          · obtain ⟨h1, h2⟩ := hmem x hx'
            exact ⟨fun hv => h1 (List.mem_cons_of_mem nb hv), List.mem_cons_of_mem nb h2⟩
          · rw [List.mem_singleton] at hx'
            subst hx'
            exact ⟨h, List.mem_cons_self _ _⟩
        · intro y hy
          rcases List.mem_cons.mp hy with rfl | hy'
          · exact List.mem_append_left _ (List.mem_append_right _ (List.mem_singleton.mpr rfl))
          · rcases List.mem_append.mp (hcov y hy') with hy2 | hy2
            · exact List.mem_append_left _ (List.mem_append_left _ hy2)
            · rcases List.mem_cons.mp hy2 with rfl | hy3
              · exact List.mem_append_left _ (List.mem_append_right _ (List.mem_singleton.mpr rfl))
              · exact List.mem_append_right _ hy3

theorem dfsLoop_nil (g : List City) (fuel : Nat) (v : List String) (acc : Int) :
    dfsLoop g fuel [] v acc = (acc, v) := by
  cases fuel <;> rfl

theorem dfsLoop_spec (g : List City) :
    ∀ fuel stack v acc, ∃ new : List String,
      dfsLoop g fuel stack v acc = (acc + sumPops g new, new ++ v) ∧
      new.Nodup ∧ (∀ x ∈ new, x ∉ v ∧ x ∈ allConns g) := by
  intro fuel
  induction fuel with
  | zero =>
      intro stack v acc
      refine ⟨[], ?_, List.nodup_nil, ?_⟩
      · simp [dfsLoop, sumPops]
      · intro x hx; cases hx
  | succ fuel ih =>
      intro stack v acc
      cases stack with
      | nil =>
          refine ⟨[], ?_, List.nodup_nil, ?_⟩
          · simp [dfsLoop_nil, sumPops]
          · intro x hx; cases hx
      | cons top rest =>
          obtain ⟨new1, heq1, _hnd1, hmem1, _hcov1⟩ :=
            dfsVisit_spec g (connOf g top) rest v acc
          obtain ⟨new2, heq2, hnd2, hmem2⟩ :=
            ih (new1 ++ rest) (new1 ++ v) (acc + sumPops g new1)
          refine ⟨new2 ++ new1, ?_, ?_, ?_⟩
          · show dfsLoop g (fuel + 1) (top :: rest) v acc = _
            unfold dfsLoop
            simp only [heq1]
            rw [heq2, sumPops_append, List.append_assoc]
            refine congrArg₂ Prod.mk ?_ rfl
            ring
          · rw [List.nodup_append]
            refine ⟨hnd2, _hnd1, ?_⟩
            intro x hx hx'
            exact (hmem2 x hx).1 (List.mem_append_left _ hx')
          · intro x hx
            rcases List.mem_append.mp hx with hx' | hx'
            · obtain ⟨h1, h2⟩ := hmem2 x hx'
              exact ⟨fun hv => h1 (List.mem_append_right _ hv), h2⟩
            · obtain ⟨h1, h2⟩ := hmem1 x hx'
              exact ⟨h1, connOf_subset_allConns g top x h2⟩

theorem dfs_skip {g : List City} {c : City} {v : List String}
    (h : c.name ∈ v) : depth_first_search g c v = (0, v) := by
  unfold depth_first_search
  rw [if_pos h]

theorem dfs_run {g : List City} {c : City} {v : List String} (h : c.name ∉ v) :
    ∃ new : List String,
      depth_first_search g c v = (c.population + sumPops g new, new ++ c.name :: v) ∧
      new.Nodup ∧ (∀ x ∈ new, (x ≠ c.name ∧ x ∉ v) ∧ x ∈ allConns g) := by
  unfold depth_first_search
  rw [if_neg h]
  obtain ⟨new, heq, hnd, hmem⟩ :=
    dfsLoop_spec g (dfsFuel g) [c.name] (c.name :: v) c.population
  refine ⟨new, heq, hnd, ?_⟩
  intro x hx
  obtain ⟨h1, h2⟩ := hmem x hx
  refine ⟨⟨?_, ?_⟩, h2⟩
  · intro he
    apply h1
    rw [he]
    exact List.mem_cons_self _ _
  · intro hv
    exact h1 (List.mem_cons_of_mem _ hv)

theorem dfsLoop_marks_head (g : List City) (fuel : Nat) (top : String)
    (rest v : List String) (acc : Int) :
    ∀ nb ∈ connOf g top, nb ∈ (dfsLoop g (fuel + 1) (top :: rest) v acc).2 := by
  intro nb hnb
  obtain ⟨new1, heq1, _, _, hcov1⟩ := dfsVisit_spec g (connOf g top) rest v acc
  obtain ⟨new2, heq2, _, _⟩ :=
    dfsLoop_spec g fuel (new1 ++ rest) (new1 ++ v) (acc + sumPops g new1)
  unfold dfsLoop
  simp only [heq1]
  rw [heq2]
  exact List.mem_append_right _ (hcov1 nb hnb)

theorem dfs_marks_neighbors {g : List City} {c : City} {v : List String}
    (h : c.name ∉ v) :
    ∀ nb ∈ connOf g c.name, nb ∈ (depth_first_search g c v).2 := by
  intro nb hnb
  unfold depth_first_search
  rw [if_neg h]
  have : dfsFuel g = ((g.map (fun c => c.connections.length)).sum + g.length) + 1 := rfl
  rw [this]
  exact dfsLoop_marks_head g _ c.name [] (c.name :: v) c.population nb hnb

theorem dfs_no_new {g : List City} {c : City} {v : List String}
    (h : c.name ∉ v) (hconn : ∀ nb ∈ connOf g c.name, nb ∈ c.name :: v) :
    depth_first_search g c v = (c.population, c.name :: v) := by
  unfold depth_first_search
  rw [if_neg h]
  have hfuel : dfsFuel g = ((g.map (fun c => c.connections.length)).sum + g.length) + 1 := rfl
  rw [hfuel]
  obtain ⟨new1, heq1, _, hmem1, _⟩ :=
    dfsVisit_spec g (connOf g c.name) [] (c.name :: v) c.population
  have hnil : new1 = [] := by
    cases hn : new1 with
    | nil => rfl
    | cons a t =>
        exfalso
        have ha : a ∈ new1 := by rw [hn]; exact List.mem_cons_self _ _
        exact (hmem1 a ha).1 (hconn a (hmem1 a ha).2)
  rw [hnil] at heq1
  unfold dfsLoop
  simp only [heq1, List.nil_append]
  rw [dfsLoop_nil]
  simp [sumPops]

/-! ### Lemmas about the two component loops -/

theorem resetAll_not_names (g : List City) (v0 : List String) :
    ∀ n ∈ resetAll g v0, n ∉ cityNames g := by
  intro n hn
  unfold resetAll at hn
  have := List.of_mem_filter hn
  intro hmem
  rw [← containsName_iff] at hmem
  rw [hmem] at this
  cases this

theorem resetAll_eq_nil {g : List City} {v0 : List String}
    (h : ∀ n ∈ v0, n ∈ cityNames g) : resetAll g v0 = [] := by
  unfold resetAll
  rw [List.filter_eq_nil_iff]
  intro n hn
  have := containsName_iff.mpr (h n hn)
  rw [this]
  simp

theorem islandsLoop_visited (g : List City) :
    ∀ cs : List City, ∀ v : List String, ∀ k : Nat, ∃ new : List String,
      (islandsLoop g cs v k).2 = new ++ v ∧ new.Nodup ∧
      (∀ x ∈ new, x ∉ v ∧ (x ∈ cs.map City.name ∨ x ∈ allConns g)) ∧
      (∀ c ∈ cs, c.name ∈ new ++ v) := by
  intro cs
  induction cs with
  | nil =>
      intro v k
      refine ⟨[], rfl, List.nodup_nil, ?_, ?_⟩
      · intro x hx; cases hx
      · intro c hc; cases hc
  | cons c cs ih =>
      intro v k
      unfold islandsLoop
      by_cases h : c.name ∈ v
      · rw [if_pos h]
        obtain ⟨new, heq, hnd, hmem, hcov⟩ := ih v k
        refine ⟨new, heq, hnd, ?_, ?_⟩
        · intro x hx
          obtain ⟨h1, h2⟩ := hmem x hx
          refine ⟨h1, ?_⟩
          rcases h2 with h2 | h2
          · exact Or.inl (by rw [List.map_cons]; exact List.mem_cons_of_mem _ h2)
          · exact Or.inr h2
        · intro c' hc'
          rcases List.mem_cons.mp hc' with rfl | hc''
          · exact List.mem_append_right _ h
          · exact hcov c' hc''
      · rw [if_neg h]
        obtain ⟨newD, heqD, hndD, hmemD⟩ := dfs_run (g := g) (c := c) (v := v) h
        rw [heqD]
        obtain ⟨new2, heq2, hnd2, hmem2, hcov2⟩ := ih (newD ++ c.name :: v) (k + 1)
        refine ⟨new2 ++ newD ++ [c.name], ?_, ?_, ?_, ?_⟩
        · rw [heq2]
          simp [List.append_assoc]
        · rw [List.nodup_append, List.nodup_append]
          refine ⟨⟨hnd2, hndD, ?_⟩, List.nodup_singleton _, ?_⟩
          · intro x hx hx'
            exact (hmem2 x hx).1 (List.mem_append_left _ hx')
          · intro x hx hx'
            rw [List.mem_singleton] at hx'
            subst hx'
            rcases List.mem_append.mp hx with h2 | hD
            · exact (hmem2 c.name h2).1
                (List.mem_append_right _ (List.mem_cons_self _ _))
            · exact (hmemD c.name hD).1.1 rfl
        · intro x hx
          rcases List.mem_append.mp hx with hx' | hx'
          · rcases List.mem_append.mp hx' with h2 | hD
            · obtain ⟨h1, hsrc⟩ := hmem2 x h2
              refine ⟨fun hv => h1 (List.mem_append_right _ (List.mem_cons_of_mem _ hv)), ?_⟩
              rcases hsrc with hs | hs
              · exact Or.inl (by rw [List.map_cons]; exact List.mem_cons_of_mem _ hs)
              · exact Or.inr hs
            · exact ⟨(hmemD x hD).1.2, Or.inr (hmemD x hD).2⟩
          · rw [List.mem_singleton] at hx'
            subst hx'
            exact ⟨h, Or.inl (by rw [List.map_cons]; exact List.mem_cons_self _ _)⟩
        · intro c' hc'
          rcases List.mem_cons.mp hc' with rfl | hc''
          · exact List.mem_append_left _
              (List.mem_append_right _ (List.mem_singleton.mpr rfl))
          · have := hcov2 c' hc''
            rcases List.mem_append.mp this with h2 | hrest
            · exact List.mem_append_left _ (List.mem_append_left _ (List.mem_append_left _ h2))
            · rcases List.mem_append.mp hrest with hD | hv
              · exact List.mem_append_left _ (List.mem_append_left _ (List.mem_append_right _ hD))
              · rcases List.mem_cons.mp hv with heqn | hv'
                · rw [heqn]
                  exact List.mem_append_left _
                    (List.mem_append_right _ (List.mem_singleton.mpr rfl))
                · exact List.mem_append_right _ hv'

theorem islandsLoop_count_le (g : List City) :
    ∀ cs v k, (islandsLoop g cs v k).1 ≤ k + cs.length := by
  intro cs
  induction cs with
  | nil => intro v k; simp [islandsLoop]
  | cons c cs ih =>
      intro v k
      unfold islandsLoop
      by_cases h : c.name ∈ v
      · rw [if_pos h]
        have := ih v k
        simp only [List.length_cons]
        omega
      · rw [if_neg h]
        show (islandsLoop g cs (depth_first_search g c v).2 (k + 1)).1 ≤ _
        have := ih (depth_first_search g c v).2 (k + 1)
        simp only [List.length_cons]
        omega

theorem islandsLoop_count_lt (g : List City) :
    ∀ cs v k (B : City), B ∈ cs → B.name ∈ v →
      (islandsLoop g cs v k).1 + 1 ≤ k + cs.length := by
  intro cs
  induction cs with
  | nil => intro v k B hB _; cases hB
  | cons c cs ih =>
      intro v k B hB hBv
      unfold islandsLoop
      rcases List.mem_cons.mp hB with hBc | hB'
      · rw [if_pos (by rw [← hBc]; exact hBv)]
        have := islandsLoop_count_le g cs v k
        simp only [List.length_cons]
        omega
      · by_cases h : c.name ∈ v
        · rw [if_pos h]
          have := ih v k B hB' hBv
          simp only [List.length_cons]
          omega
        · rw [if_neg h]
          show (islandsLoop g cs (depth_first_search g c v).2 (k + 1)).1 + 1 ≤ _
          obtain ⟨newD, heqD, _, _⟩ := dfs_run (g := g) (c := c) h
          have hBv' : B.name ∈ (depth_first_search g c v).2 := by
            rw [heqD]
            exact List.mem_append_right _ (List.mem_cons_of_mem _ hBv)
          have := ih (depth_first_search g c v).2 (k + 1) B hB' hBv'
          simp only [List.length_cons]
          omega

theorem islandsLoop_count_pair (g : List City) :
    ∀ cs v k (A B : City), A ∈ cs → B ∈ cs → A.name ≠ B.name →
      B.name ∈ connOf g A.name → A.name ∈ connOf g B.name →
      (islandsLoop g cs v k).1 + 1 ≤ k + cs.length := by
  intro cs
  induction cs with
  | nil => intro v k A B hA _ _ _ _; cases hA
  | cons c cs ih =>
      intro v k A B hA hB hne hAB hBA
      by_cases hAv : A.name ∈ v
      · exact islandsLoop_count_lt g (c :: cs) v k A hA hAv
      · by_cases hBv : B.name ∈ v
        · exact islandsLoop_count_lt g (c :: cs) v k B hB hBv
        · rcases List.mem_cons.mp hA with hAc | hA'
          · have hcv : c.name ∉ v := by rw [← hAc]; exact hAv
            unfold islandsLoop
            rw [if_neg hcv]
            show (islandsLoop g cs (depth_first_search g c v).2 (k + 1)).1 + 1 ≤ _
            have hBmark : B.name ∈ (depth_first_search g c v).2 := by
              apply dfs_marks_neighbors hcv B.name
              rw [← hAc]
              exact hAB
            have hBcs : B ∈ cs := by
              rcases List.mem_cons.mp hB with hBc | h'
              · exfalso
                apply hne
                rw [hAc, hBc]
              · exact h'
            have := islandsLoop_count_lt g cs _ (k + 1) B hBcs hBmark
            simp only [List.length_cons]
            omega
          · rcases List.mem_cons.mp hB with hBc | hB'
            · have hcv : c.name ∉ v := by rw [← hBc]; exact hBv
              unfold islandsLoop
              rw [if_neg hcv]
              show (islandsLoop g cs (depth_first_search g c v).2 (k + 1)).1 + 1 ≤ _
              have hAmark : A.name ∈ (depth_first_search g c v).2 := by
                apply dfs_marks_neighbors hcv A.name
                rw [← hBc]
                exact hBA
              have := islandsLoop_count_lt g cs _ (k + 1) A hA' hAmark
              simp only [List.length_cons]
              omega
            · unfold islandsLoop
              by_cases h : c.name ∈ v
              · rw [if_pos h]
                have := ih v k A B hA' hB' hne hAB hBA
                simp only [List.length_cons]
                omega
              · rw [if_neg h]
                show (islandsLoop g cs (depth_first_search g c v).2 (k + 1)).1 + 1 ≤ _
                have := ih (depth_first_search g c v).2 (k + 1) A B hA' hB' hne hAB hBA
                simp only [List.length_cons]
                omega

theorem islandsLoop_count_full (g : List City)
    (hndg : (cityNames g).Nodup)
    (hself : ∀ c ∈ g, ∀ nb ∈ c.connections, nb = c.name) :
    ∀ cs v k, (∀ c ∈ cs, c ∈ g) → (cs.map City.name).Nodup →
      (∀ c ∈ cs, c.name ∉ v) →
      (islandsLoop g cs v k).1 = k + cs.length := by
  intro cs
  induction cs with
  | nil => intro v k _ _ _; simp [islandsLoop]
  | cons c cs ih =>
      intro v k hsub hnd hnv
      unfold islandsLoop
      have hcv : c.name ∉ v := hnv c (List.mem_cons_self _ _)
      rw [if_neg hcv]
      have hcg : c ∈ g := hsub c (List.mem_cons_self _ _)
      have hconn : ∀ nb ∈ connOf g c.name, nb ∈ c.name :: v := by
        intro nb hnb
        rw [connOf_eq_of_mem hndg hcg] at hnb
        rw [hself c hcg nb hnb]
        exact List.mem_cons_self _ _
      have hdfs := dfs_no_new hcv hconn
      show (islandsLoop g cs (depth_first_search g c v).2 (k + 1)).1 = _
      rw [hdfs]
      show (islandsLoop g cs (c.name :: v) (k + 1)).1 = _
      have hndtail : (cs.map City.name).Nodup ∧ c.name ∉ cs.map City.name := by
        rw [List.map_cons] at hnd
        exact ⟨(List.nodup_cons.mp hnd).2, (List.nodup_cons.mp hnd).1⟩
      have hih := ih (c.name :: v) (k + 1)
        (fun c' h' => hsub c' (List.mem_cons_of_mem _ h')) hndtail.1 ?_
      · rw [hih]
        simp only [List.length_cons]
        omega
      · intro c' h'
        intro hmem
        rcases List.mem_cons.mp hmem with heq | hv'
        · exact hndtail.2 (heq ▸ List.mem_map_of_mem City.name h')
        · exact hnv c' (List.mem_cons_of_mem _ h') hv'

theorem allConns_subset_names {g : List City}
    (hndg : (cityNames g).Nodup) (hcin : ConnInNames g) :
    ∀ x ∈ allConns g, x ∈ cityNames g := by
  intro x hx
  obtain ⟨c, hc, hxc⟩ := mem_allConns.mp hx
  apply hcin c.name x
  rw [connOf_eq_of_mem hndg hc]
  exact hxc

theorem popsLoop_spec (g : List City) (hndg : (cityNames g).Nodup)
    (hcin : ConnInNames g) :
    ∀ cs v acc, (∀ c ∈ cs, c ∈ g) →
      ∃ new : List String,
        (popsLoop g cs v acc).2 = new ++ v ∧
        ((popsLoop g cs v acc).1).sum = acc.sum + sumPops g new ∧
        new.Nodup ∧
        (∀ x ∈ new, x ∉ v ∧ x ∈ cityNames g) ∧
        (∀ c ∈ cs, c.name ∈ new ++ v) := by
  intro cs
  induction cs with
  | nil =>
      intro v acc _
      refine ⟨[], rfl, by simp [popsLoop, sumPops], List.nodup_nil, ?_, ?_⟩
      · intro x hx; cases hx
      · intro c hc; cases hc
  | cons c cs ih =>
      intro v acc hsub
      have hcg : c ∈ g := hsub c (List.mem_cons_self _ _)
      have hsub' : ∀ c' ∈ cs, c' ∈ g := fun c' h' => hsub c' (List.mem_cons_of_mem _ h')
      unfold popsLoop
      by_cases h : c.name ∈ v
      · rw [if_pos h]
        obtain ⟨new, h1, h2, h3, h4, h5⟩ := ih v acc hsub'
        refine ⟨new, h1, h2, h3, h4, ?_⟩
        intro c' hc'
        rcases List.mem_cons.mp hc' with hcc | hc''
        · rw [hcc]
          exact List.mem_append_right _ h
        · exact h5 c' hc''
      · rw [if_neg h]
        obtain ⟨newD, heqD, hndD, hmemD⟩ := dfs_run (g := g) (c := c) (v := v) h
        show ∃ new, (popsLoop g cs (depth_first_search g c v).2
            (acc ++ [(depth_first_search g c v).1])).2 = new ++ v ∧ _
        rw [heqD]
        obtain ⟨new2, h1, h2, h3, h4, h5⟩ := ih (newD ++ c.name :: v)
          (acc ++ [c.population + sumPops g newD]) hsub'
        refine ⟨new2 ++ newD ++ [c.name], ?_, ?_, ?_, ?_, ?_⟩
        · rw [h1]
          simp [List.append_assoc]
        · rw [h2, List.sum_append]
          have hpop : popOf g c.name = c.population := popOf_eq_of_mem hndg hcg
          rw [sumPops_append, sumPops_append]
          unfold sumPops
          simp only [List.map_cons, List.map_nil, List.sum_cons, List.sum_nil,
            List.sum_singleton, hpop]
          ring
        · rw [List.nodup_append, List.nodup_append]
          refine ⟨⟨h3, hndD, ?_⟩, List.nodup_singleton _, ?_⟩
          · intro x hx hx'
            exact (h4 x hx).1 (List.mem_append_left _ hx')
          · intro x hx hx'
            rw [List.mem_singleton] at hx'
            subst hx'
            rcases List.mem_append.mp hx with h2' | hD
            · exact (h4 c.name h2').1
                (List.mem_append_right _ (List.mem_cons_self _ _))
            · exact (hmemD c.name hD).1.1 rfl
        · intro x hx
          rcases List.mem_append.mp hx with hx' | hx'
          · rcases List.mem_append.mp hx' with h2' | hD
            · obtain ⟨hn1, hn2⟩ := h4 x h2'
              exact ⟨fun hv => hn1 (List.mem_append_right _ (List.mem_cons_of_mem _ hv)), hn2⟩
            · exact ⟨(hmemD x hD).1.2,
                allConns_subset_names hndg hcin x (hmemD x hD).2⟩
          · rw [List.mem_singleton] at hx'
            subst hx'
            exact ⟨h, List.mem_map_of_mem City.name hcg⟩
        · intro c' hc'
          rcases List.mem_cons.mp hc' with hcc | hc''
          · rw [hcc]
            exact List.mem_append_left _
              (List.mem_append_right _ (List.mem_singleton.mpr rfl))
          · have := h5 c' hc''
            rcases List.mem_append.mp this with h2' | hrest
            · exact List.mem_append_left _ (List.mem_append_left _ (List.mem_append_left _ h2'))
            · rcases List.mem_append.mp hrest with hD | hv
              · exact List.mem_append_left _
                  (List.mem_append_left _ (List.mem_append_right _ hD))
              · rcases List.mem_cons.mp hv with heqn | hv'
                · rw [heqn]
                  exact List.mem_append_left _
                    (List.mem_append_right _ (List.mem_singleton.mpr rfl))
                · exact List.mem_append_right _ hv'

theorem connections_eq_connOf {g : List City} {c : City}
    (hnd : (cityNames g).Nodup) (hc : c ∈ g) :
    c.connections = connOf g c.name :=
  (connOf_eq_of_mem hnd hc).symm

theorem sumPops_names {g : List City} (hnd : (cityNames g).Nodup) :
    sumPops g (cityNames g) = (g.map City.population).sum := by
  unfold sumPops cityNames
  rw [List.map_map]
  congr 1
  apply List.map_congr_left
  intro c hc
  exact popOf_eq_of_mem hnd hc

/-! ### Claim theorems: components and populations -/

/-- C2: for every graph `g` built by `build_graph`, the sum of the list
returned by `island_populations g` equals the sum of the `population`
attribute over all nodes of `g` (for any initial marker state). -/
theorem C2_island_populations_sum (pop road : String) (v0 : List String) :
    ((island_populations (build_graph pop road) v0).1).sum =
      ((build_graph pop road).map City.population).sum := by
  have inv := build_graph_inv pop road
  unfold island_populations
  obtain ⟨new, _h1, h2, h3, h4, h5⟩ :=
    popsLoop_spec (build_graph pop road) inv.1 inv.2.1 (build_graph pop road)
      (resetAll (build_graph pop road) v0) [] (fun _ h => h)
  rw [h2]
  have hset : ∀ x, x ∈ new ↔ x ∈ cityNames (build_graph pop road) := by
    intro x
    constructor
    · exact fun hx => (h4 x hx).2
    · intro hx
      obtain ⟨c, hc, hcx⟩ := List.mem_map.mp hx
      rcases List.mem_append.mp (h5 c hc) with hm | hm
      · rw [← hcx]; exact hm
      · exact absurd (hcx ▸ hx)
          (fun hh => resetAll_not_names _ v0 c.name hm (by rw [hcx]; exact hx))
  have hperm : new.Perm (cityNames (build_graph pop road)) :=
    (List.perm_ext_iff_of_nodup h3 inv.1).mpr hset
  have : sumPops (build_graph pop road) new =
      sumPops (build_graph pop road) (cityNames (build_graph pop road)) := by
    unfold sumPops
    exact (hperm.map (popOf (build_graph pop road))).sum_eq
  rw [this, sumPops_names inv.1]
  simp

/-- C2 witness: the theorem evaluated at a concrete two-city graph. -/
theorem C2_witness :
    ((island_populations (build_graph "W1 : 10\nW2 : 20" "W1 : W2") []).1).sum =
      ((build_graph "W1 : 10\nW2 : 20" "W1 : W2").map City.population).sum :=
  C2_island_populations_sum "W1 : 10\nW2 : 20" "W1 : W2" []

/-- C3 counterexample: on the graph built from population `"A : 1"` and
road `"A : A"`, `number_of_islands` equals the number of nodes although
the graph has an edge (the `A`–`A` self-loop), refuting the claimed
"equals the number of nodes iff zero edges". -/
theorem C3_counterexample :
    (number_of_islands (build_graph "A : 1" "A : A") []).1 =
      (build_graph "A : 1" "A : A").length ∧
    ∃ c ∈ build_graph "A : 1" "A : A", c.connections ≠ [] := by decide

/-- C3 (amended): `number_of_islands` is at most the number of nodes,
with equality iff every connection is a self-loop (equivalently, iff
there is no edge between two distinct nodes). -/
theorem C3_islands_le_and_eq_iff (pop road : String) (v0 : List String) :
    (number_of_islands (build_graph pop road) v0).1 ≤
      (build_graph pop road).length ∧
    ((number_of_islands (build_graph pop road) v0).1 =
        (build_graph pop road).length ↔
      ∀ c ∈ build_graph pop road, ∀ nb ∈ c.connections, nb = c.name) := by
  have inv := build_graph_inv pop road
  unfold number_of_islands
  constructor
  · have := islandsLoop_count_le (build_graph pop road) (build_graph pop road)
      (resetAll (build_graph pop road) v0) 0
    omega
  · constructor
    · intro heq c hc nb hnb
      by_contra hne
      have hnbc : nb ∈ connOf (build_graph pop road) c.name := by
        rw [connOf_eq_of_mem inv.1 hc]
        exact hnb
      have hnbn : nb ∈ cityNames (build_graph pop road) := inv.2.1 c.name nb hnbc
      obtain ⟨B, hB, hBn⟩ := List.mem_map.mp hnbn
      have hAB : B.name ∈ connOf (build_graph pop road) c.name := by
        rw [hBn]; exact hnbc
      have hBA : c.name ∈ connOf (build_graph pop road) B.name :=
        inv.2.2 c.name B.name hAB
      have hne' : c.name ≠ B.name := by
        rw [hBn]; exact fun he => hne he.symm
      have := islandsLoop_count_pair (build_graph pop road) (build_graph pop road)
        (resetAll (build_graph pop road) v0) 0 c B hc hB hne' hAB hBA
      omega
    · intro hself
      have := islandsLoop_count_full (build_graph pop road) inv.1 hself
        (build_graph pop road) (resetAll (build_graph pop road) v0) 0
        (fun _ h => h) inv.1 ?_
      · omega
      · intro c hc hmem
        exact resetAll_not_names _ v0 c.name hmem (List.mem_map_of_mem City.name hc)

/-- C3 witness: the amended theorem evaluated on a concrete graph. -/
theorem C3_witness :
    (number_of_islands (build_graph "P : 5\nQ : 6" "P : Q") []).1 ≤
      (build_graph "P : 5\nQ : 6" "P : Q").length :=
  (C3_islands_le_and_eq_iff "P : 5\nQ : 6" "P : Q" []).1

/-- C4: in every graph built by `build_graph`, the neighbour relation
is symmetric: if `B` is in `A`'s connections list then `A` is in `B`'s
connections list. -/
theorem C4_symmetric_connections (pop road : String) (a b : City)
    (ha : a ∈ build_graph pop road) (hb : b ∈ build_graph pop road)
    (h : b.name ∈ a.connections) : a.name ∈ b.connections := by
  have inv := build_graph_inv pop road
  have h1 : b.name ∈ connOf (build_graph pop road) a.name := by
    rw [connOf_eq_of_mem inv.1 ha]
    exact h
  have h2 := inv.2.2 a.name b.name h1
  rw [connOf_eq_of_mem inv.1 hb] at h2
  exact h2

/-- C4 witness: symmetry applied to a concrete edge. -/
theorem C4_witness :
    (City.mk "A" 1 ["B"]).name ∈ (City.mk "B" 2 ["A"]).connections :=
  C4_symmetric_connections "A : 1\nB : 2" "A : B"
    (City.mk "A" 1 ["B"]) (City.mk "B" 2 ["A"])
    (by decide) (by decide) (by decide)

/-- C5 counterexample: the road line `"S : S"` (same registered city on
both sides) makes `build_graph` create a self-loop, refuting "no node
appears in its own connections list ... including when a road line
names the same city on both sides". -/
theorem C5_counterexample :
    ∃ c ∈ build_graph "S : 3" "S : S", c.name ∈ c.connections := by decide

/-- C5 (amended): a node of a built graph appears in its own
connections list only if some road line parses to that city's name on
both sides; such a line adds the single (deduplicated) self-loop. -/
theorem C5_selfloop_only_from_selfline (pop road : String) (c : City)
    (hc : c ∈ build_graph pop road) (h : c.name ∈ c.connections) :
    ∃ l ∈ pyLines road, parseRoadLine l = some (c.name, c.name) := by
  have inv := build_graph_inv pop road
  have h1 : c.name ∈ connOf (build_graph pop road) c.name := by
    rw [connOf_eq_of_mem inv.1 hc]
    exact h
  rcases selfLoop_roadPhase (pyLines road) (popPhase (pyLines pop)) h1 with h2 | h2
  · rw [connOf_eq_nil_of_popInv (popInv_popPhase (pyLines pop))] at h2
    cases h2
  · exact h2

/-- C5 witness: the amended theorem applied to the concrete self-loop
graph. -/
theorem C5_witness :
    ∃ l ∈ pyLines "T : T", parseRoadLine l = some ("T", "T") :=
  C5_selfloop_only_from_selfline "T : 9" "T : T" (City.mk "T" 9 ["T"])
    (by decide) (by decide)

/-- C6 counterexample: after `number_of_islands` returns, the visited
marker of node `M` is true, not false, refuting "leaves every node's
visited marker false after it returns". -/
theorem C6_counterexample :
    ∃ c ∈ build_graph "M : 3" "",
      c.name ∈ (number_of_islands (build_graph "M : 3" "") []).2 := by decide

/-- C6 (amended): `number_of_islands` and `island_populations` clear
every node's visited marker before exploring — their behaviour does not
depend on the incoming marker state — and after they return every
node's marker is true (markers are cleared again only at the start of
the next traversal).  `min_highways` never reads or writes the node
markers; it uses a call-local visited set. -/
theorem C6_markers (pop road : String) (v0 : List String)
    (hv : ∀ n ∈ v0, n ∈ cityNames (build_graph pop road)) :
    number_of_islands (build_graph pop road) v0 =
      number_of_islands (build_graph pop road) [] ∧
    island_populations (build_graph pop road) v0 =
      island_populations (build_graph pop road) [] ∧
    (∀ c ∈ build_graph pop road,
      c.name ∈ (number_of_islands (build_graph pop road) v0).2) ∧
    (∀ c ∈ build_graph pop road,
      c.name ∈ (island_populations (build_graph pop road) v0).2) := by
  have inv := build_graph_inv pop road
  refine ⟨?_, ?_, ?_, ?_⟩
  · unfold number_of_islands
    rw [resetAll_eq_nil hv,
      resetAll_eq_nil (fun n hn => absurd hn (List.not_mem_nil n))]
  · unfold island_populations
    rw [resetAll_eq_nil hv,
      resetAll_eq_nil (fun n hn => absurd hn (List.not_mem_nil n))]
  · intro c hc
    unfold number_of_islands
    obtain ⟨new, h1, _, _, hcov⟩ := islandsLoop_visited (build_graph pop road)
      (build_graph pop road) (resetAll (build_graph pop road) v0) 0
    rw [h1]
    exact hcov c hc
  · intro c hc
    unfold island_populations
    obtain ⟨new, h1, _, _, _, hcov⟩ := popsLoop_spec (build_graph pop road)
      inv.1 inv.2.1 (build_graph pop road)
      (resetAll (build_graph pop road) v0) [] (fun _ h => h)
    rw [h1]
    exact hcov c hc

/-- C6 witness: the amended theorem at a concrete graph and initial
marker state. -/
theorem C6_witness :
    number_of_islands (build_graph "X : 1" "") ["X"] =
      number_of_islands (build_graph "X : 1" "") [] :=
  (C6_markers "X : 1" "" ["X"] (by decide)).1

/-! ### Lemmas and claims about line processing in `build_graph` -/

theorem roadPhase_append (m : List City) (l1 l2 : List String) :
    roadPhase m (l1 ++ l2) = roadPhase (roadPhase m l1) l2 := by
  unfold roadPhase
  rw [List.foldl_append]

theorem roadPhase_cons (m : List City) (l : String) (ls : List String) :
    roadPhase m (l :: ls) = roadPhase (roadStep m l) ls := rfl

theorem popStep_none {m : List City} {line : String}
    (hp : parsePopLine line = none) : popStep m line = m := by
  unfold popStep
  rw [hp]

theorem roadStep_none {m : List City} {line : String}
    (hp : parseRoadLine line = none) : roadStep m line = m := by
  unfold roadStep
  rw [hp]

theorem containsName_false_of_not_mem {m : List City} {n : String}
    (h : n ∉ cityNames m) : containsName m n = false := by
  cases hb : containsName m n
  · rfl
  · exact absurd (containsName_iff.mp hb) h

theorem roadStep_skip_unknown {m : List City} {line : String} {n1 n2 : String}
    (hp : parseRoadLine line = some (n1, n2))
    (h : containsName m n1 = false ∨ containsName m n2 = false) :
    roadStep m line = m := by
  unfold roadStep
  rw [hp]
  dsimp only
  rw [if_neg]
  intro hand
  rcases h with h | h <;> rw [h] at hand <;> simp at hand

/-- C8: `build_graph` creates an edge only when both endpoint names are
registered from the population data; a road line naming an unknown city
is dropped without changing the graph (and without error: the embedding
is total), and every edge of a built graph joins registered names. -/
theorem C8_unknown_road_dropped (pop road : String) (l1 l2 : List String)
    (bad : String) (n1 n2 : String)
    (hp : parseRoadLine bad = some (n1, n2))
    (hunk : n1 ∉ cityNames (popPhase (pyLines pop)) ∨
            n2 ∉ cityNames (popPhase (pyLines pop))) :
    roadPhase (popPhase (pyLines pop)) (l1 ++ bad :: l2) =
      roadPhase (popPhase (pyLines pop)) (l1 ++ l2) ∧
    (∀ c ∈ build_graph pop road, ∀ nb ∈ c.connections,
      nb ∈ cityNames (build_graph pop road)) := by
  constructor
  · rw [roadPhase_append, roadPhase_append]
    have hnames : cityNames (roadPhase (popPhase (pyLines pop)) l1) =
        cityNames (popPhase (pyLines pop)) := names_roadPhase _ _
    have hcf : containsName (roadPhase (popPhase (pyLines pop)) l1) n1 = false ∨
        containsName (roadPhase (popPhase (pyLines pop)) l1) n2 = false := by
      rcases hunk with h | h
      · exact Or.inl (containsName_false_of_not_mem (by rw [hnames]; exact h))
      · exact Or.inr (containsName_false_of_not_mem (by rw [hnames]; exact h))
    rw [roadPhase_cons, roadStep_skip_unknown hp hcf]
  · intro c hc nb hnb
    have inv := build_graph_inv pop road
    apply inv.2.1 c.name nb
    rw [connOf_eq_of_mem inv.1 hc]
    exact hnb

/-- C8 witness: a road line naming the unregistered city `Z` is dropped
from a concrete build. -/
theorem C8_witness :
    roadPhase (popPhase (pyLines "A : 4")) (([] : List String) ++ "Z : A" :: []) =
      roadPhase (popPhase (pyLines "A : 4")) (([] : List String) ++ []) ∧
    (∀ c ∈ build_graph "A : 4" "Z : A", ∀ nb ∈ c.connections,
      nb ∈ cityNames (build_graph "A : 4" "Z : A")) :=
  C8_unknown_road_dropped "A : 4" "Z : A" [] [] "Z : A" "Z" "A"
    (by decide) (Or.inl (by decide))

/-- C9: a malformed line (no `" : "` two-part split, or an invalid
integer on a population line) is skipped by `build_graph` without
affecting any other line; construction always completes (the embedding
is a total function). -/
theorem C9_malformed_lines_skipped (l1 l2 rls r1 r2 : List String)
    (m : List City) (badp badr : String)
    (hp : parsePopLine badp = none) (hr : parseRoadLine badr = none) :
    roadPhase (popPhase (l1 ++ badp :: l2)) rls =
      roadPhase (popPhase (l1 ++ l2)) rls ∧
    roadPhase m (r1 ++ badr :: r2) = roadPhase m (r1 ++ r2) := by
  constructor
  · have hpp : popPhase (l1 ++ badp :: l2) = popPhase (l1 ++ l2) := by
      unfold popPhase
      rw [List.foldl_append, List.foldl_append, List.foldl_cons, popStep_none hp]
    rw [hpp]
  · rw [roadPhase_append, roadPhase_append, roadPhase_cons, roadStep_none hr]

/-- C9 witness: a malformed population line and a malformed road line
are each skipped in a concrete build. -/
theorem C9_witness :
    roadPhase (popPhase (["H : 1"] ++ "garbage" :: ["I : 2"])) ["H : I"] =
      roadPhase (popPhase (["H : 1"] ++ ["I : 2"])) ["H : I"] ∧
    roadPhase [] (["x"] ++ "a : b : c" :: []) = roadPhase [] (["x"] ++ []) :=
  C9_malformed_lines_skipped ["H : 1"] ["I : 2"] ["H : I"] ["x"] [] []
    "garbage" "a : b : c" (by decide) (by decide)

/-! ### Duplicate population declarations (C10) -/

theorem find?_map_replace (m : List City) (c : City) :
    (m.map (fun x => if x.name = c.name then c else x)).find?
        (fun x => x.name = c.name) =
      if containsName m c.name then some c else none := by
  induction m with
  | nil => simp [containsName]
  | cons d m ih =>
      rw [List.map_cons]
      by_cases hd : d.name = c.name
      · rw [if_pos hd]
        rw [List.find?_cons_of_pos _ (by simp)]
        have hcont : containsName (d :: m) c.name = true := by
          unfold containsName
          rw [List.any_cons]
          simp [hd]
        rw [hcont]
        simp
      · rw [if_neg hd]
        rw [List.find?_cons_of_neg _ (by simp [hd])]
        have hcont : containsName (d :: m) c.name = containsName m c.name := by
          unfold containsName
          rw [List.any_cons]
          simp [hd]
        rw [hcont]
        exact ih

theorem find?_append_single (m : List City) (c : City)
    (h : containsName m c.name = false) :
    (m ++ [c]).find? (fun x => x.name = c.name) = some c := by
  rw [List.find?_append]
  have hm : m.find? (fun x => (x.name = c.name : Bool)) = none := by
    rw [List.find?_eq_none]
    intro x hx hpx
    have : containsName m c.name = true := by
      unfold containsName
      rw [List.any_eq_true]
      exact ⟨x, hx, hpx⟩
    rw [this] at h
    cases h
  rw [hm]
  simp

theorem find?_mapSet_self (m : List City) (c : City) :
    (mapSet m c).find? (fun x => x.name = c.name) = some c := by
  unfold mapSet
  cases hc : containsName m c.name
  · rw [if_neg Bool.false_ne_true]
    exact find?_append_single m c hc
  · rw [if_pos rfl, find?_map_replace, hc]
    simp

theorem find?_mapSet_ne (m : List City) (c : City) (n : String)
    (h : n ≠ c.name) :
    (mapSet m c).find? (fun x => x.name = n) = m.find? (fun x => x.name = n) := by
  have hcn : c.name ≠ n := Ne.symm h
  unfold mapSet
  split
  · have hpf : ((fun x : City => decide (x.name = n)) ∘
        fun x : City => if x.name = c.name then c else x) =
        (fun x : City => decide (x.name = n)) := by
      funext x
      show decide ((if x.name = c.name then c else x).name = n) = decide (x.name = n)
      by_cases hx : x.name = c.name
      · rw [if_pos hx]
        have h1 : (decide (c.name = n)) = false := by simp [hcn]
        have h2 : (decide (x.name = n)) = false := by simp [hx, hcn]
        rw [h1, h2]
      · rw [if_neg hx]
    rw [List.find?_map, hpf]
    cases hf : m.find? (fun x => (x.name = n : Bool)) with
    | none => rfl
    | some x =>
        have hx : x.name = n := by simpa using List.find?_some hf
        have hxc : ¬ (x.name = c.name) := by rw [hx]; exact h
        simp [hxc]
  · rw [List.find?_append]
    have hone : [c].find? (fun x => (x.name = n : Bool)) = none := by
      rw [List.find?_eq_none]
      intro x hx
      rw [List.mem_singleton] at hx
      subst hx
      simp [hcn]
    rw [hone, Option.or_none]

theorem popLookup_popFold (prs : List (String × Int)) :
    ∀ (m : List City) (n : String),
      popLookup (List.foldl (fun m pr => mapSet m (City.mk pr.1 pr.2 [])) m prs) n =
        ((prs.reverse.find? (fun pr => pr.1 = n)).map Prod.snd).or (popLookup m n) := by
  induction prs with
  | nil =>
      intro m n
      simp [Option.none_or]
  | cons pr prs ih =>
      intro m n
      rw [List.foldl_cons, ih, List.reverse_cons, List.find?_append]
      have hstep : popLookup (mapSet m (City.mk pr.1 pr.2 [])) n =
          Option.or (([pr].find? (fun pr => (pr.1 = n : Bool))).map Prod.snd)
            (popLookup m n) := by
        by_cases hn : pr.1 = n
        · have hfind : (mapSet m (City.mk pr.1 pr.2 [])).find? (fun x => x.name = n) =
              some (City.mk pr.1 pr.2 []) := by
            rw [← hn]
            exact find?_mapSet_self m (City.mk pr.1 pr.2 [])
          unfold popLookup
          rw [hfind, List.find?_cons_of_pos _ (by simp [hn])]
          rfl
        · unfold popLookup
          rw [find?_mapSet_ne m (City.mk pr.1 pr.2 []) n (fun he => hn (Eq.symm he)),
            List.find?_cons_of_neg _ (by simp [hn])]
          rfl
      show Option.or _ (popLookup (mapSet m (City.mk pr.1 pr.2 [])) n) = _
      rw [hstep]
      cases hX : prs.reverse.find? (fun pr => (pr.1 = n : Bool)) with
      | none =>
          simp [Option.none_or]
      | some q =>
          simp [Option.or]

theorem popLookup_add_connection (m : List City) (a b n : String) :
    popLookup (add_connection m a b) n = popLookup m n := by
  unfold popLookup
  rw [find?_add_connection]
  cases hf : m.find? (fun c => c.name = n) with
  | none => rfl
  | some c => by_cases h : c.name = a <;> simp [h]

theorem popLookup_roadStep (m : List City) (line : String) (n : String) :
    popLookup (roadStep m line) n = popLookup m n := by
  unfold roadStep
  cases parseRoadLine line with
  | none => rfl
  | some pr =>
      obtain ⟨n1, n2⟩ := pr
      dsimp only
      split
      · rw [popLookup_add_connection, popLookup_add_connection]
      · rfl

theorem popLookup_roadPhase (ls : List String) :
    ∀ (m : List City) (n : String), popLookup (roadPhase m ls) n = popLookup m n := by
  induction ls with
  | nil => intro m n; rfl
  | cons l ls ih =>
      intro m n
      unfold roadPhase at ih ⊢
      rw [List.foldl_cons, ih, popLookup_roadStep]

theorem popPhase_filterMap (ls : List String) :
    ∀ m : List City, List.foldl popStep m ls =
      List.foldl (fun m pr => mapSet m (City.mk pr.1 pr.2 [])) m (parsedPops ls) := by
  induction ls with
  | nil => intro m; rfl
  | cons l ls ih =>
      intro m
      cases hp : parsePopLine l with
      | none =>
          have hpl : parsedPops (l :: ls) = parsedPops ls := by
            unfold parsedPops
            rw [List.filterMap_cons, hp]
          rw [hpl, List.foldl_cons, popStep_none hp]
          exact ih m
      | some pr =>
          obtain ⟨n, p⟩ := pr
          have hpl : parsedPops (l :: ls) = (n, p) :: parsedPops ls := by
            unfold parsedPops
            rw [List.filterMap_cons, hp]
          rw [hpl, List.foldl_cons, List.foldl_cons]
          have hstep : popStep m l = mapSet m (City.mk n p []) := by
            unfold popStep
            rw [hp]
          rw [hstep]
          exact ih _

theorem names_popFold (prs : List (String × Int)) :
    ∀ m : List City,
      cityNames (List.foldl (fun m pr => mapSet m (City.mk pr.1 pr.2 [])) m prs) =
        firstDedup (cityNames m) (prs.map Prod.fst) := by
  induction prs with
  | nil => intro m; rfl
  | cons pr prs ih =>
      intro m
      rw [List.foldl_cons, List.map_cons]
      have hfd : firstDedup (cityNames m) (pr.1 :: prs.map Prod.fst) =
          firstDedup (if pr.1 ∈ cityNames m then cityNames m
            else cityNames m ++ [pr.1]) (prs.map Prod.fst) := rfl
      rw [hfd, ih]
      congr 1
      rw [names_mapSet]
      by_cases hm : pr.1 ∈ cityNames m
      · rw [if_pos (containsName_iff.mpr hm), if_pos hm]
      · rw [if_neg hm, if_neg (by rw [containsName_false_of_not_mem hm]; exact Bool.false_ne_true)]

/-- C10: duplicate population lines: the built graph has exactly one
node per name (names are `Nodup`); the node order is the order of first
occurrences of the successfully parsed population records; each node's
population is the value of the last parsed record for its name; and no
connection refers to a discarded node (all edges point at nodes of the
returned graph, since roads are processed only after all population
lines). -/
theorem C10_duplicate_pop_lines (pop road : String) :
    (cityNames (build_graph pop road)).Nodup ∧
    cityNames (build_graph pop road) =
      firstDedup [] ((parsedPops (pyLines pop)).map Prod.fst) ∧
    (∀ c ∈ build_graph pop road,
      ((parsedPops (pyLines pop)).reverse.find?
        (fun pr => pr.1 = c.name)).map Prod.snd = some c.population) ∧
    (∀ c ∈ build_graph pop road, ∀ nb ∈ c.connections,
      nb ∈ cityNames (build_graph pop road)) := by
  have inv := build_graph_inv pop road
  refine ⟨inv.1, ?_, ?_, ?_⟩
  · have h1 : cityNames (build_graph pop road) =
        cityNames (popPhase (pyLines pop)) := names_roadPhase _ _
    rw [h1]
    unfold popPhase
    rw [popPhase_filterMap, names_popFold]
    rfl
  · intro c hc
    have h1 : popLookup (build_graph pop road) c.name = some c.population := by
      unfold popLookup
      rw [find?_name_of_nodup inv.1 hc]
      rfl
    have h2 : popLookup (build_graph pop road) c.name =
        ((parsedPops (pyLines pop)).reverse.find?
          (fun pr => pr.1 = c.name)).map Prod.snd := by
      unfold build_graph
      rw [popLookup_roadPhase]
      unfold popPhase
      rw [popPhase_filterMap, popLookup_popFold]
      rw [show popLookup [] c.name = none from rfl, Option.or_none]
    rw [← h2, h1]
  · intro c hc nb hnb
    apply inv.2.1 c.name nb
    rw [connOf_eq_of_mem inv.1 hc]
    exact hnb

/-- C10 witness: the theorem evaluated at a build whose population data
declares the same name twice. -/
theorem C10_witness :
    (cityNames (build_graph "D : 1\nE : 5\nD : 2" "D : E")).Nodup ∧
    cityNames (build_graph "D : 1\nE : 5\nD : 2" "D : E") =
      firstDedup [] ((parsedPops (pyLines "D : 1\nE : 5\nD : 2")).map Prod.fst) ∧
    (∀ c ∈ build_graph "D : 1\nE : 5\nD : 2" "D : E",
      ((parsedPops (pyLines "D : 1\nE : 5\nD : 2")).reverse.find?
        (fun pr => pr.1 = c.name)).map Prod.snd = some c.population) ∧
    (∀ c ∈ build_graph "D : 1\nE : 5\nD : 2" "D : E", ∀ nb ∈ c.connections,
      nb ∈ cityNames (build_graph "D : 1\nE : 5\nD : 2" "D : E")) :=
  C10_duplicate_pop_lines "D : 1\nE : 5\nD : 2" "D : E"

/-! ### Walks and the BFS cut argument -/

theorem walk_zero {g : List City} {a b : String} : Walk g 0 a b ↔ a = b :=
  Iff.rfl

theorem walk_succ {g : List City} {n : Nat} {a b : String} :
    Walk g (n + 1) a b ↔ ∃ c, c ∈ connOf g a ∧ Walk g n c b :=
  Iff.rfl

theorem walk_snoc {g : List City} :
    ∀ {n : Nat} {a z y : String}, Walk g n a z → y ∈ connOf g z →
      Walk g (n + 1) a y := by
  intro n
  induction n with
  | zero =>
      intro a z y hw hy
      rw [walk_zero] at hw
      subst hw
      exact walk_succ.mpr ⟨y, hy, rfl⟩
  | succ n ih =>
      intro a z y hw hy
      obtain ⟨c, hc, hw'⟩ := walk_succ.mp hw
      exact walk_succ.mpr ⟨c, hc, ih hw' hy⟩

theorem walk_succ_right {g : List City} :
    ∀ {n : Nat} {a y : String}, Walk g (n + 1) a y →
      ∃ z, Walk g n a z ∧ y ∈ connOf g z := by
  intro n
  induction n with
  | zero =>
      intro a y hw
      obtain ⟨c, hc, hw'⟩ := walk_succ.mp hw
      rw [walk_zero] at hw'
      subst hw'
      exact ⟨a, rfl, hc⟩
  | succ n ih =>
      intro a y hw
      obtain ⟨c, hc, hw'⟩ := walk_succ.mp hw
      obtain ⟨z, hz, hy⟩ := ih hw'
      exact ⟨z, walk_succ.mpr ⟨c, hc, hz⟩, hy⟩

theorem walk_reverse {g : List City} (hsym : SymmConn g) :
    ∀ {n : Nat} {a b : String}, Walk g n a b → Walk g n b a := by
  intro n
  induction n with
  | zero =>
      intro a b hw
      rw [walk_zero] at hw ⊢
      exact hw.symm
  | succ n ih =>
      intro a b hw
      obtain ⟨c, hc, hw'⟩ := walk_succ.mp hw
      exact walk_snoc (ih hw') (hsym a c hc)

theorem bfs_cut (g : List City) (start : String)
    (q : List (String × Nat)) (v : List String)
    (hstart : start ∈ v)
    (hproc : ∀ x ∈ v, (∀ p ∈ q, p.1 ≠ x) → ∀ y ∈ connOf g x, y ∈ v)
    (hmin : ∀ p ∈ q, ∀ k, Walk g k start p.1 → p.2 ≤ k) :
    ∀ m (y : String), Walk g m start y → y ∉ v → ∃ p ∈ q, p.2 + 1 ≤ m := by
  intro m
  induction m with
  | zero =>
      intro y hw hy
      rw [walk_zero] at hw
      subst hw
      exact absurd hstart hy
  | succ m ih =>
      intro y hw hy
      obtain ⟨z, hwz, hadj⟩ := walk_succ_right hw
      by_cases hz : z ∈ v
      · by_cases hq : ∀ p ∈ q, p.1 ≠ z
        · exact absurd (hproc z hz hq y hadj) hy
        · push_neg at hq
          obtain ⟨p, hp, hpz⟩ := hq
          refine ⟨p, hp, ?_⟩
          have := hmin p hp m (by rw [hpz]; exact hwz)
          omega
      · obtain ⟨p, hp, hle⟩ := ih z hwz hz
        exact ⟨p, hp, by omega⟩

/-! ### The BFS neighbour scan -/

theorem bfsScan_found (endName : String) (d : Nat) :
    ∀ (conns : List String) (q : List (String × Nat)) (v : List String),
      endName ∈ conns →
      ∃ q' v', bfsScan endName d conns q v = (some (d + 1), q', v') := by
  intro conns
  induction conns with
  | nil => intro q v h; cases h
  | cons nb rest ih =>
      intro q v h
      unfold bfsScan
      by_cases hnb : nb = endName
      · rw [if_pos hnb]
        exact ⟨q, v, rfl⟩
      · rw [if_neg hnb]
        have hrest : endName ∈ rest := by
          rcases List.mem_cons.mp h with heq | h'
          · exact absurd heq.symm hnb
          · exact h'
        by_cases hv : nb ∈ v
        · rw [if_pos hv]
          exact ih q v hrest
        · rw [if_neg hv]
          exact ih (q ++ [(nb, d + 1)]) (nb :: v) hrest

theorem bfsScan_none (endName : String) (d : Nat) :
    ∀ (conns : List String) (q : List (String × Nat)) (v : List String),
      endName ∉ conns →
      ∃ new : List String,
        bfsScan endName d conns q v =
          (none, q ++ new.map (fun x => (x, d + 1)), new.reverse ++ v) ∧
        new.Nodup ∧ (∀ x ∈ new, x ∉ v ∧ x ∈ conns) ∧
        (∀ nb ∈ conns, nb ∈ new ++ v) := by
  intro conns
  induction conns with
  | nil =>
      intro q v _
      refine ⟨[], by simp [bfsScan], List.nodup_nil, ?_, ?_⟩
      · intro x hx; cases hx
      · intro nb hnb; cases hnb
  | cons nb rest ih =>
      intro q v hend
      have hnb : nb ≠ endName := fun he => hend (he ▸ List.mem_cons_self _ _)
      have hrest : endName ∉ rest := fun h => hend (List.mem_cons_of_mem _ h)
      unfold bfsScan
      rw [if_neg hnb]
      by_cases hv : nb ∈ v
      · rw [if_pos hv]
        obtain ⟨new, heq, hnd, hmem, hcov⟩ := ih q v hrest
        refine ⟨new, heq, hnd, ?_, ?_⟩
        · intro x hx
          obtain ⟨h1, h2⟩ := hmem x hx
          exact ⟨h1, List.mem_cons_of_mem _ h2⟩
        · intro x hx
          rcases List.mem_cons.mp hx with heq' | hx'
          · rw [heq']
            exact List.mem_append_right _ hv
          · exact hcov x hx'
      · rw [if_neg hv]
        obtain ⟨new, heq, hnd, hmem, hcov⟩ := ih (q ++ [(nb, d + 1)]) (nb :: v) hrest
        refine ⟨nb :: new, ?_, ?_, ?_, ?_⟩
        · rw [heq, List.map_cons, List.reverse_cons]
          simp [List.append_assoc]
        · rw [List.nodup_cons]
          refine ⟨fun hmem' => (hmem nb hmem').1 (List.mem_cons_self _ _), hnd⟩
        · intro x hx
          rcases List.mem_cons.mp hx with heq' | hx'
          · rw [heq']
            exact ⟨hv, List.mem_cons_self _ _⟩
          · obtain ⟨h1, h2⟩ := hmem x hx'
            exact ⟨fun h => h1 (List.mem_cons_of_mem _ h), List.mem_cons_of_mem _ h2⟩
        · intro y hy
          rcases List.mem_cons.mp hy with heq' | hy'
          · rw [heq']
            exact List.mem_append_left _ (List.mem_cons_self _ _)
          · rcases List.mem_append.mp (hcov y hy') with h1 | h1
            · exact List.mem_append_left _ (List.mem_cons_of_mem _ h1)
            · rcases List.mem_cons.mp h1 with heq'' | h2
              · rw [heq'']
                exact List.mem_append_left _ (List.mem_cons_self _ _)
              · exact List.mem_append_right _ h2

/-! ### Fuel accounting for the BFS loop -/

theorem length_allConns (g : List City) :
    (allConns g).length = (g.map (fun c => c.connections.length)).sum := by
  induction g with
  | nil => rfl
  | cons c g ih =>
      show (c.connections ++ allConns g).length = _
      rw [List.length_append, ih, List.map_cons, List.sum_cons]

theorem missing_le (g : List City) (v : List String) :
    missing g v ≤ (allConns g).length := by
  unfold missing
  calc ((allConns g).toFinset \ v.toFinset).card
      ≤ (allConns g).toFinset.card := Finset.card_le_card Finset.sdiff_subset
    _ ≤ (allConns g).length := List.toFinset_card_le _

theorem missing_append (g : List City) (new v : List String)
    (hnd : new.Nodup) (hmem : ∀ x ∈ new, x ∉ v ∧ x ∈ allConns g) :
    missing g (new ++ v) + new.length = missing g v := by
  unfold missing
  rw [List.toFinset_append]
  have hsub : new.toFinset ⊆ (allConns g).toFinset \ v.toFinset := by
    intro x hx
    rw [List.mem_toFinset] at hx
    rw [Finset.mem_sdiff, List.mem_toFinset, List.mem_toFinset]
    exact ⟨(hmem x hx).2, (hmem x hx).1⟩
  have hsd : (allConns g).toFinset \ (new.toFinset ∪ v.toFinset) =
      ((allConns g).toFinset \ v.toFinset) \ new.toFinset := by
    ext x
    simp only [Finset.mem_sdiff, Finset.mem_union]
    tauto
  rw [hsd, Finset.card_sdiff hsub, List.toFinset_card_of_nodup hnd]
  have := Finset.card_le_card hsub
  rw [List.toFinset_card_of_nodup hnd] at this
  omega

/-! ### Preservation of the BFS invariant -/

theorem pairwise_const_label (d : Nat) (l : List String) :
    (l.map (fun x => (x, d))).Pairwise
      (fun p p' : String × Nat => p.2 ≤ p'.2) := by
  rw [List.pairwise_map]
  induction l with
  | nil => exact List.Pairwise.nil
  | cons a l ih => exact List.pairwise_cons.mpr ⟨fun _ _ => le_refl d, ih⟩

theorem bfsInv_step (g : List City) (start endName c : String) (d : Nat)
    (rest : List (String × Nat)) (v : List String)
    (inv : BfsInv g start endName ((c, d) :: rest) v)
    (new : List String)
    (hnd : new.Nodup) (hmem : ∀ x ∈ new, x ∉ v ∧ x ∈ connOf g c)
    (hcov : ∀ nb ∈ connOf g c, nb ∈ new ++ v)
    (hnotend : endName ∉ connOf g c) :
    BfsInv g start endName (rest ++ new.map (fun x => (x, d + 1)))
      (new.reverse ++ v) := by
  have hdmin : ∀ p ∈ (c, d) :: rest, d ≤ p.2 := by
    intro p hp
    rcases List.mem_cons.mp hp with heq | hp'
    · rw [heq]
    · exact (List.pairwise_cons.mp inv.q_sorted).1 p hp'
  refine ⟨?_, ?_, ?_, ?_, ?_, ?_, ?_, ?_⟩
  · exact List.mem_append_right _ inv.start_mem
  · intro h
    rcases List.mem_append.mp h with h' | h'
    · exact hnotend (hmem endName (List.mem_reverse.mp h')).2
    · exact inv.end_not_mem h'
  · intro p hp
    rcases List.mem_append.mp hp with hp' | hp'
    · exact List.mem_append_right _ (inv.q_mem p (List.mem_cons_of_mem _ hp'))
    · obtain ⟨x, hx, rfl⟩ := List.mem_map.mp hp'
      exact List.mem_append_left _ (List.mem_reverse.mpr hx)
  · intro p hp
    rcases List.mem_append.mp hp with hp' | hp'
    · exact inv.q_walk p (List.mem_cons_of_mem _ hp')
    · obtain ⟨x, hx, rfl⟩ := List.mem_map.mp hp'
      exact walk_snoc (inv.q_walk (c, d) (List.mem_cons_self _ _)) (hmem x hx).2
  · intro p hp k hk
    rcases List.mem_append.mp hp with hp' | hp'
    · exact inv.q_min p (List.mem_cons_of_mem _ hp') k hk
    · obtain ⟨x, hx, rfl⟩ := List.mem_map.mp hp'
      obtain ⟨p', hp'', hle⟩ := bfs_cut g start ((c, d) :: rest) v
        inv.start_mem inv.processed inv.q_min k x hk (hmem x hx).1
      have := hdmin p' hp''
      show d + 1 ≤ k
      omega
  · rw [List.pairwise_append]
    refine ⟨(List.pairwise_cons.mp inv.q_sorted).2, pairwise_const_label (d + 1) new, ?_⟩
    intro p hp p' hp'
    obtain ⟨x, _, rfl⟩ := List.mem_map.mp hp'
    exact inv.q_layers p (List.mem_cons_of_mem _ hp) (c, d) (List.mem_cons_self _ _)
  · intro p hp p' hp'
    rcases List.mem_append.mp hp with hp1 | hp1 <;>
      rcases List.mem_append.mp hp' with hp2 | hp2
    · exact inv.q_layers p (List.mem_cons_of_mem _ hp1) p' (List.mem_cons_of_mem _ hp2)
    · obtain ⟨x, _, rfl⟩ := List.mem_map.mp hp2
      have := inv.q_layers p (List.mem_cons_of_mem _ hp1) (c, d) (List.mem_cons_self _ _)
      show p.2 ≤ d + 1 + 1
      omega
    · obtain ⟨x, _, rfl⟩ := List.mem_map.mp hp1
      have := hdmin p' (List.mem_cons_of_mem _ hp2)
      show d + 1 ≤ p'.2 + 1
      omega
    · obtain ⟨x, _, rfl⟩ := List.mem_map.mp hp1
      obtain ⟨x', _, rfl⟩ := List.mem_map.mp hp2
      show d + 1 ≤ d + 1 + 1
      omega
  · intro x hx hqx y hy
    rcases List.mem_append.mp hx with hx' | hx'
    · exfalso
      have hxn : x ∈ new := List.mem_reverse.mp hx'
      exact hqx (x, d + 1)
        (List.mem_append_right _
          (List.mem_map.mpr ⟨x, hxn, rfl⟩)) rfl
    · by_cases hxc : x = c
      · have hyc : y ∈ connOf g c := by rw [← hxc]; exact hy
        rcases List.mem_append.mp (hcov y hyc) with h1 | h1
        · exact List.mem_append_left _ (List.mem_reverse.mpr h1)
        · exact List.mem_append_right _ h1
      · have hq : ∀ p ∈ (c, d) :: rest, p.1 ≠ x := by
          intro p hp
          rcases List.mem_cons.mp hp with heq | hp'
          · rw [heq]
            exact fun he => hxc he.symm
          · exact hqx p (List.mem_append_left _ hp')
        exact List.mem_append_right _ (inv.processed x hx' hq y hy)

theorem bfsInv_init (g : List City) (start endName : String)
    (hne : start ≠ endName) :
    BfsInv g start endName [(start, 0)] [start] := by
  refine ⟨List.mem_singleton.mpr rfl, ?_, ?_, ?_, ?_, ?_, ?_, ?_⟩
  · intro h
    rw [List.mem_singleton] at h
    exact hne h.symm
  · intro p hp
    rw [List.mem_singleton] at hp
    rw [hp]
    exact List.mem_singleton.mpr rfl
  · intro p hp
    rw [List.mem_singleton] at hp
    rw [hp]
    exact rfl
  · intro p hp k _
    rw [List.mem_singleton] at hp
    rw [hp]
    exact Nat.zero_le k
  · exact List.pairwise_singleton _ _
  · intro p hp p' hp'
    rw [List.mem_singleton] at hp hp'
    rw [hp, hp']
    omega
  · intro x hx hqx y _
    rw [List.mem_singleton] at hx
    exact absurd (show (start, 0).1 = x by rw [hx])
      (hqx (start, 0) (List.mem_singleton.mpr rfl))

/-! ### Correctness of the BFS loop -/

theorem bfsLoop_correct (g : List City) (start endName : String) :
    ∀ (fuel : Nat) (q : List (String × Nat)) (v : List String),
      BfsInv g start endName q v →
      q.length + missing g v ≤ fuel →
      (∃ m : Nat, bfsLoop g endName fuel q v = (m : Int) ∧
        Walk g m start endName ∧ ∀ k, Walk g k start endName → m ≤ k) ∨
      (bfsLoop g endName fuel q v = -1 ∧ ∀ k, ¬ Walk g k start endName) := by
  intro fuel
  induction fuel with
  | zero =>
      intro q v inv hfuel
      have hq : q = [] := List.eq_nil_of_length_eq_zero (by omega)
      subst hq
      right
      refine ⟨rfl, ?_⟩
      intro k hk
      obtain ⟨p, hp, _⟩ := bfs_cut g start [] v inv.start_mem inv.processed
        inv.q_min k endName hk inv.end_not_mem
      cases hp
  | succ fuel ih =>
      intro q v inv hfuel
      cases q with
      | nil =>
          right
          refine ⟨rfl, ?_⟩
          intro k hk
          obtain ⟨p, hp, _⟩ := bfs_cut g start [] v inv.start_mem inv.processed
            inv.q_min k endName hk inv.end_not_mem
          cases hp
      | cons p0 rest =>
          obtain ⟨c, d⟩ := p0
          have hdmin : ∀ p ∈ (c, d) :: rest, d ≤ p.2 := by
            intro p hp
            rcases List.mem_cons.mp hp with heq | hp'
            · rw [heq]
            · exact (List.pairwise_cons.mp inv.q_sorted).1 p hp'
          by_cases hend : endName ∈ connOf g c
          · obtain ⟨q', v', hsc⟩ := bfsScan_found endName d (connOf g c) rest v hend
            left
            refine ⟨d + 1, ?_, ?_, ?_⟩
            · unfold bfsLoop
              rw [hsc]
            · exact walk_snoc (inv.q_walk (c, d) (List.mem_cons_self _ _)) hend
            · intro k hk
              obtain ⟨p, hp, hle⟩ := bfs_cut g start ((c, d) :: rest) v
                inv.start_mem inv.processed inv.q_min k endName hk inv.end_not_mem
              have := hdmin p hp
              omega
          · obtain ⟨new, hsc, hnd, hmem, hcov⟩ :=
              bfsScan_none endName d (connOf g c) rest v hend
            have inv2 := bfsInv_step g start endName c d rest v inv new hnd hmem hcov hend
            have hmiss : missing g (new.reverse ++ v) + new.length = missing g v := by
              have h1 := missing_append g new.reverse v (List.nodup_reverse.mpr hnd) ?_
              · rw [List.length_reverse] at h1
                exact h1
              · intro x hx
                rw [List.mem_reverse] at hx
                exact ⟨(hmem x hx).1, connOf_subset_allConns g c x (hmem x hx).2⟩
            have hlen : (rest ++ new.map (fun x => (x, d + 1))).length +
                missing g (new.reverse ++ v) ≤ fuel := by
              rw [List.length_append, List.length_map]
              simp only [List.length_cons] at hfuel
              omega
            have res := ih (rest ++ new.map (fun x => (x, d + 1)))
              (new.reverse ++ v) inv2 hlen
            unfold bfsLoop
            rw [hsc]
            exact res

/-- Full characterisation of `min_highways` on arbitrary name pairs:
`0` on equal names; otherwise either the exact minimum walk length, or
`-1` exactly when no walk exists. -/
theorem min_highways_spec (g : List City) (a b : String) :
    (a = b → min_highways g a b = 0) ∧
    (a ≠ b →
      ((∃ m : Nat, min_highways g a b = (m : Int) ∧ Walk g m a b ∧
        ∀ k, Walk g k a b → m ≤ k) ∨
       (min_highways g a b = -1 ∧ ∀ k, ¬ Walk g k a b))) := by
  constructor
  · intro h
    unfold min_highways
    rw [if_pos h]
  · intro h
    unfold min_highways
    rw [if_neg h]
    apply bfsLoop_correct g a b (bfsFuel g) [(a, 0)] [a] (bfsInv_init g a b h)
    have h1 := missing_le g [a]
    rw [length_allConns] at h1
    unfold bfsFuel
    simp only [List.length_singleton]
    omega

/-! ### Claim theorems: shortest path -/

/-- C1: for every graph built by `build_graph` and nodes `a`, `b` of
it, `min_highways` returns `0` on the identical node, the minimum
number of edges on any path from `a` to `b` when `b` is reachable, and
`-1` when `b` is unreachable from `a`. -/
theorem C1_min_highways_correct (pop road : String) (a b : String)
    (ha : a ∈ cityNames (build_graph pop road))
    (hb : b ∈ cityNames (build_graph pop road)) :
    (a = b → min_highways (build_graph pop road) a b = 0) ∧
    (∀ n, Walk (build_graph pop road) n a b →
      ∃ m : Nat, min_highways (build_graph pop road) a b = (m : Int) ∧
        Walk (build_graph pop road) m a b ∧
        ∀ k, Walk (build_graph pop road) k a b → m ≤ k) ∧
    ((∀ n, ¬ Walk (build_graph pop road) n a b) →
      min_highways (build_graph pop road) a b = -1) := by
  have spec := min_highways_spec (build_graph pop road) a b
  refine ⟨spec.1, ?_, ?_⟩
  · intro n hn
    by_cases hab : a = b
    · refine ⟨0, ?_, ?_, ?_⟩
      · rw [spec.1 hab]
        rfl
      · rw [walk_zero]
        exact hab
      · intro k _
        exact Nat.zero_le k
    · rcases spec.2 hab with h | h
      · exact h
      · exact absurd hn (h.2 n)
  · intro hnone
    by_cases hab : a = b
    · exact absurd (walk_zero.mpr hab) (hnone 0)
    · rcases spec.2 hab with h | h
      · obtain ⟨m, _, hw, _⟩ := h
        exact absurd hw (hnone m)
      · exact h.1

/-- C1 witness: on the chain `A – B – C`, the BFS result is the exact
minimum walk length from `A` to `C`. -/
theorem C1_witness :
    ∃ m : Nat,
      min_highways (build_graph "A : 1\nB : 2\nC : 3" "A : B\nB : C") "A" "C" = (m : Int) ∧
      Walk (build_graph "A : 1\nB : 2\nC : 3" "A : B\nB : C") m "A" "C" ∧
      ∀ k, Walk (build_graph "A : 1\nB : 2\nC : 3" "A : B\nB : C") k "A" "C" → m ≤ k :=
  (C1_min_highways_correct "A : 1\nB : 2\nC : 3" "A : B\nB : C" "A" "C"
    (by decide) (by decide)).2.1 2 (by decide)

/-- C7: `min_highways` is symmetric on every graph built by
`build_graph`, for reachable and unreachable pairs alike. -/
theorem C7_min_highways_symmetric (pop road : String) (a b : String)
    (ha : a ∈ cityNames (build_graph pop road))
    (hb : b ∈ cityNames (build_graph pop road)) :
    min_highways (build_graph pop road) a b =
      min_highways (build_graph pop road) b a := by
  have hsym := (build_graph_inv pop road).2.2
  by_cases hab : a = b
  · rw [hab]
  · have spec1 := (min_highways_spec (build_graph pop road) a b).2 hab
    have spec2 := (min_highways_spec (build_graph pop road) b a).2
      (fun h => hab h.symm)
    rcases spec1 with ⟨m1, he1, hw1, hm1⟩ | ⟨he1, hn1⟩
    · rcases spec2 with ⟨m2, he2, hw2, hm2⟩ | ⟨he2, hn2⟩
      · have h12 : m1 ≤ m2 := hm1 m2 (walk_reverse hsym hw2)
        have h21 : m2 ≤ m1 := hm2 m1 (walk_reverse hsym hw1)
        rw [he1, he2]
        rw [le_antisymm h12 h21]
      · exact absurd (walk_reverse hsym hw1) (hn2 m1)
    · rcases spec2 with ⟨m2, he2, hw2, hm2⟩ | ⟨he2, hn2⟩
      · exact absurd (walk_reverse hsym hw2) (hn1 m2)
      · rw [he1, he2]

/-- C7 witness: symmetry on a concrete unreachable pair. -/
theorem C7_witness :
    min_highways (build_graph "U : 1\nV : 2" "") "U" "V" =
      min_highways (build_graph "U : 1\nV : 2" "") "V" "U" :=
  C7_min_highways_symmetric "U : 1\nV : 2" "" "U" "V" (by decide) (by decide)

example : build_graph "A : 1" "A : A" = [City.mk "A" 1 ["A"]] := by decide
example : build_graph "A : 1\nB : 2" "A : B" =
    [City.mk "A" 1 ["B"], City.mk "B" 2 ["A"]] := by decide
example : min_highways (build_graph "A : 1\nB : 2\nC : 3" "A : B\nB : C") "A" "C" = 2 := by
  decide
example : (number_of_islands (build_graph "A : 1\nB : 2" "") []).1 = 2 := by decide
example : Walk (build_graph "A : 1\nB : 2" "A : B") 1 "A" "B" := by decide
